import Mathlib

/-!
# Verification of the `migrate` versioning engine

A shallow embedding of the repository's two core modules:

* `semver.ts` — `normalizeSemver`, `parseSemver`, `compareSemver`;
* `migrate.ts` — the `Migrate` engine (`addVersion`, `getActiveVersion`,
  `setActiveVersion`, `__upMeta`, `up`, `__downMeta`, `down`, `uninstall`).

Strings are modelled as Lean `String` (a list of unicode scalar values).
JavaScript regular-expression matching is embedded as deterministic parsing
functions reproducing the exact greedy/lazy semantics of the source patterns
(`.` never matches a newline; `\d` is `[0-9]`).  Two JS primitives are
modelled up to locale/encoding detail: `String.prototype.localeCompare` and
the `<` operator on strings are both embedded as code-point lexicographic
comparison (`lexCmp`), and `parseInt` on a digit string is embedded as the
exact natural number it denotes.  Thrown exceptions are modelled with
`Option`/`Except`; asynchronous calls in the source are sequential awaits,
so they embed as ordinary function calls.
-/

namespace Migrate

/-! ## Character and string helpers -/

/-- Code-point lexicographic three-way comparison of character lists.
Embeds both the JS `<` operator on strings (used for pre-release identifier
comparison) and `String.prototype.localeCompare` (the final tie-break),
which are modelled as code-point order. -/
def lexCmp : List Char → List Char → Int
  | [], [] => 0
  | [], _ :: _ => -1
  | _ :: _, [] => 1
  | x :: xs, y :: ys => if x < y then -1 else if y < x then 1 else lexCmp xs ys

/-- `lexCmp` on strings. -/
def lexCmpS (a b : String) : Int := lexCmp a.data b.data

/-- JS `x < y` on strings, code-point order. -/
def lexLt (a b : String) : Bool := lexCmpS a b < 0

/-- Numeric value of a digit string, the embedding of `parseInt(d, 10)`
on a string of decimal digits. -/
def natOfDigits (l : List Char) : Nat :=
  l.foldl (fun n c => n * 10 + (c.toNat - ('0').toNat)) 0

/-- Greedy match of the regex fragment `\d+`-prefix: splits a character
list into its maximal leading run of decimal digits and the rest. -/
def munchDigits : List Char → List Char × List Char
  | [] => ([], [])
  | c :: rest =>
    if c.isDigit then
      let p := munchDigits rest
      (c :: p.1, p.2)
    else ([], c :: rest)

/-- No character of the list is a newline (regex `.` matches any character
except `\n`). -/
def noNL (l : List Char) : Bool := l.all (fun c => c ≠ '\n')

/-- Embedding of JS `String.prototype.split` with a single-character
separator: splits into the (possibly empty) parts between separators. -/
def splitOnChar (sep : Char) : List Char → List (List Char)
  | [] => [[]]
  | c :: rest =>
    let r := splitOnChar sep rest
    if c = sep then [] :: r
    else (c :: r.headI) :: r.tail

/-- JS `prerelease.split(".")` as a list of identifier strings. -/
def splitDots (p : String) : List String := (splitOnChar '.' p.data).map (fun l => ⟨l⟩)

/-! ## SemVer module (`src/semver.ts`) -/

/-- Checks the remainder standing after the lazily-matched pre-release
group of the pattern `^(\d+)(?:\.(\d+))?(?:\.(\d+))?(?:-(.+?))?(?:\+(.+))?$`:
it is valid when empty (no build), or when it is `+` followed by a
nonempty newline-free build part. -/
def tailOk : List Char → Option (Option (List Char))
  | [] => some none
  | c :: b =>
    if c = '+' then (if b ≠ [] ∧ noNL b then some (some b) else none) else none

/-- The lazy group `(?:-(.+?))?(?:\+(.+))?$` applied to the characters after
the hyphen: finds the shortest nonempty newline-free prefix (the pre-release)
whose remainder is a valid build tail. `none` when no split exists (the
whole pattern then fails to match). -/
def lazySplit : List Char → Option (List Char × Option (List Char))
  | [] => none
  | c :: rest =>
    if c = '\n' then none
    else
      match tailOk rest with
      | some b => some ([c], b)
      | none =>
        match lazySplit rest with
        | some pb => some (c :: pb.1, pb.2)
        | none => none

/-- Capture groups of the primary pattern
`^(\d+)(?:\.(\d+))?(?:\.(\d+))?(?:-(.+?))?(?:\+(.+))?$` in `normalizeSemver`. -/
structure FullMatch where
  major : List Char
  minor : Option (List Char)
  patch : Option (List Char)
  prerelease : Option (List Char)
  build : Option (List Char)
deriving DecidableEq, Repr

/-- The optional fragment `(?:\.(\d+))?`: a dot followed by at least one
digit, captured greedily. -/
def parseDotNum : List Char → Option (List Char × List Char)
  | [] => none
  | c :: rest =>
    if c = '.' then
      let p := munchDigits rest
      if p.1 = [] then none else some p
    else none

/-- One optional `(?:\.(\d+))?` group: the capture (when the group
matches) and the remaining input. -/
def optDot (r : List Char) : Option (List Char) × List Char :=
  match parseDotNum r with
  | some dr => (some dr.1, dr.2)
  | none => (none, r)

/-- The tail `(?:-(.+?))?(?:\+(.+))?$` of the primary pattern, assembling
the final match record from the already-captured numeric groups. -/
def fmTail (d1 : List Char) (m p : Option (List Char)) : List Char → Option FullMatch
  | [] => some ⟨d1, m, p, none, none⟩
  | c :: rest =>
    if c = '-' then
      match lazySplit rest with
      | some pb => some ⟨d1, m, p, some pb.1, pb.2⟩
      | none => none
    else if c = '+' then
      (if rest ≠ [] ∧ noNL rest then some ⟨d1, m, p, none, some rest⟩ else none)
    else none

/-- Matching of the primary `normalizeSemver` pattern
`^(\d+)(?:\.(\d+))?(?:\.(\d+))?(?:-(.+?))?(?:\+(.+))?$`. -/
def fullMatch (s : List Char) : Option FullMatch :=
  let d1 := munchDigits s
  if d1.1 = [] then none
  else
    let m := optDot d1.2
    let p := optDot m.2
    fmTail d1.1 m.1 p.1 p.2

/-- Capture groups of the secondary (`alternateMatch`) pattern
`^(\d+)(?:-(.+))?$`. -/
structure AltMatch where
  major : List Char
  tail : Option (List Char)
deriving DecidableEq, Repr

/-- Matching of the secondary `normalizeSemver` pattern `^(\d+)(?:-(.+))?$`. -/
def alternateMatch (s : List Char) : Option AltMatch :=
  let d1 := munchDigits s
  if d1.1 = [] then none
  else
    match d1.2 with
    | [] => some ⟨d1.1, none⟩
    | c :: rest =>
      if c = '-' then (if rest ≠ [] ∧ noNL rest then some ⟨d1.1, some rest⟩ else none)
      else none

/-- Rendering of the primary-pattern groups:
`` `${major}.${minor}.${patch}${prerelease}${build}` `` with missing
minor/patch defaulting to `"0"`. -/
def renderFull (fm : FullMatch) : List Char :=
  fm.major ++ '.' :: fm.minor.getD [('0')] ++ '.' :: fm.patch.getD [('0')] ++
    (match fm.prerelease with
     | some p => '-' :: p
     | none => []) ++
    (match fm.build with
     | some b => '+' :: b
     | none => [])

/-- Rendering of the secondary-pattern groups: the tail after the hyphen is
split on `+`; the part before the first `+` becomes the pre-release and the
part between the first and second `+` (when present) becomes the build, any
further parts being dropped: `` `${major}.0.0${prerelease}${build}` ``. -/
def renderAlt (am : AltMatch) : List Char :=
  am.major ++ ('.' :: ('0') :: '.' :: ('0') :: []) ++
    (match am.tail with
     | some t =>
       let parts := splitOnChar '+' t
       '-' :: parts.headI ++
         (match parts with
          | _ :: b :: _ => '+' :: b
          | _ => [])
     | none => [])

/-- Strips the optional leading `v`/`V` (regex `/^v/i`). -/
def stripV : List Char → List Char
  | [] => []
  | c :: rest => if c = 'v' ∨ c = 'V' then rest else c :: rest

/-- Embedding of `normalizeSemver(version, assert)`.  `none` models a thrown
`TypeError` (only possible when `assert` is true). -/
def normalizeSemver (version : String) (assert : Bool) : Option String :=
  let s := stripV version.data
  match fullMatch s with
  | some fm => some ⟨renderFull fm⟩
  | none =>
    match alternateMatch s with
    | some am => some ⟨renderAlt am⟩
    | none => if assert then none else some ("0.0.0")

/-- Parsed semver components, the result object of `parseSemver`. -/
structure Parsed where
  major : Nat
  minor : Nat
  patch : Nat
  prerelease : String
  build : String
deriving DecidableEq, Repr

/-- Character class `[0-9A-Za-z-.]` of the canonical pattern in `parseSemver`. -/
def canonChar (c : Char) : Bool :=
  c.isDigit ∨ (('A') ≤ c ∧ c ≤ ('Z')) ∨ (('a') ≤ c ∧ c ≤ ('z')) ∨ c = '-' ∨ c = '.'

/-- Greedy match of `[0-9A-Za-z-.]+`-prefix. -/
def munchCanon : List Char → List Char × List Char
  | [] => ([], [])
  | c :: rest =>
    if canonChar c then
      let p := munchCanon rest
      (c :: p.1, p.2)
    else ([], c :: rest)

/-- Matching of the canonical pattern
`^(\d+)\.(\d+)\.(\d+)(?:-([0-9A-Za-z-.]+))?(?:\+([0-9A-Za-z-.]+))?$`
used by `parseSemver` after normalization. -/
def canonMatch (s : List Char) : Option (List Char × List Char × List Char × Option (List Char) × Option (List Char)) :=
  let d1 := munchDigits s
  if d1.1 = [] then none
  else
    match parseDotNum d1.2 with
    | none => none
    | some m =>
      match parseDotNum m.2 with
      | none => none
      | some p =>
        match p.2 with
        | [] => some (d1.1, m.1, p.1, none, none)
        | '-' :: rest =>
          let pr := munchCanon rest
          if pr.1 = [] then none
          else
            match pr.2 with
            | [] => some (d1.1, m.1, p.1, some pr.1, none)
            | '+' :: rest2 =>
              let b := munchCanon rest2
              if b.1 = [] ∨ b.2 ≠ [] then none
              else some (d1.1, m.1, p.1, some pr.1, some b.1)
            | _ => none
        | '+' :: rest2 =>
          let b := munchCanon rest2
          if b.1 = [] ∨ b.2 ≠ [] then none
          else some (d1.1, m.1, p.1, none, some b.1)
        | _ => none

/-- Embedding of `parseSemver(version)`: normalizes first (in strict mode),
then decomposes via the canonical pattern.  `none` models a thrown error. -/
def parseSemver (version : String) : Option Parsed :=
  match normalizeSemver version true with
  | none => none
  | some nv =>
    match canonMatch nv.data with
    | none => none
    | some g =>
      some ⟨natOfDigits g.1, natOfDigits g.2.1, natOfDigits g.2.2.1,
        ⟨(g.2.2.2.1).getD []⟩, ⟨(g.2.2.2.2).getD []⟩⟩

/-- Regex test `/^\d+$/` on a pre-release identifier. -/
def isNumIdent (x : String) : Bool := x.data ≠ [] ∧ x.data.all Char.isDigit

/-- The identifier-by-identifier pre-release comparison loop of
`compareSemver`: `none` means the loop fell through with no difference
(identifier lists equivalent), `some d` is the returned difference. -/
def cmpIdents : List String → List String → Option Int
  | [], [] => none
  | [], _ :: _ => some (-1)
  | _ :: _, [] => some 1
  | x :: xs, y :: ys =>
    if isNumIdent x ∧ ¬isNumIdent y then some (-1)
    else if ¬isNumIdent x ∧ isNumIdent y then some 1
    else if isNumIdent x ∧ isNumIdent y then
      let d : Int := (natOfDigits x.data : Int) - (natOfDigits y.data : Int)
      if d ≠ 0 then some d else cmpIdents xs ys
    else if x ≠ y then some (if lexLt x y then -1 else 1)
    else cmpIdents xs ys

/-- The body of `compareSemver` after both arguments parsed successfully. -/
def compareParsed (a b : String) (vA vB : Parsed) : Int :=
  if vA.major ≠ vB.major then (vA.major : Int) - (vB.major : Int)
  else if vA.minor ≠ vB.minor then (vA.minor : Int) - (vB.minor : Int)
  else if vA.patch ≠ vB.patch then (vA.patch : Int) - (vB.patch : Int)
  else if vA.prerelease = ("") ∧ vB.prerelease ≠ ("") then 1
  else if vA.prerelease ≠ ("") ∧ vB.prerelease = ("") then -1
  else if vA.prerelease ≠ ("") ∧ vB.prerelease ≠ ("") then
    match cmpIdents (splitDots vA.prerelease) (splitDots vB.prerelease) with
    | some d => d
    | none => lexCmpS a b
  else lexCmpS a b

/-- Embedding of `compareSemver(a, b)`.  `none` models a thrown error from
`parseSemver` on either argument. -/
def compareSemver (a b : String) : Option Int :=
  match parseSemver a, parseSemver b with
  | some vA, some vB => some (compareParsed a b vA vB)
  | _, _ => none

/-! ## A small framework for three-way comparators

`compareSemver` is a lexicographic chain of Int-valued comparison stages.
`GoodCmp` captures the properties each stage enjoys (exact antisymmetry,
transitivity of the negative case, and substitutivity of ties), and these
properties are preserved by chaining, which yields reflexivity,
antisymmetry and transitivity of the whole comparison. -/

/-- Lexicographic combination of two comparison outcomes. -/
def chainCmp (c d : Int) : Int := if c ≠ 0 then c else d

/-- A well-behaved three-way comparator. -/
structure GoodCmp {α : Type _} (f : α → α → Int) : Prop where
  antisym : ∀ x y, f x y = -(f y x)
  trans_lt : ∀ x y z, f x y < 0 → f y z < 0 → f x z < 0
  congr_zero : ∀ x y, f x y = 0 → ∀ z, f x z = f y z

theorem GoodCmp.refl_zero {α : Type _} {f : α → α → Int} (hf : GoodCmp f) (x : α) :
    f x x = 0 := by
  have h := hf.antisym x x
  omega

theorem GoodCmp.congr_zero_right {α : Type _} {f : α → α → Int} (hf : GoodCmp f)
    {x y : α} (h : f x y = 0) (z : α) : f z x = f z y := by
  rw [hf.antisym z x, hf.antisym z y, hf.congr_zero x y h z]

theorem chainCmp_of_ne {c d : Int} (h : c ≠ 0) : chainCmp c d = c := by
  simp [chainCmp, h]

theorem chainCmp_of_eq {c d : Int} (h : c = 0) : chainCmp c d = d := by
  simp [chainCmp, h]

/-- Two strings with the same character data are equal. -/
theorem string_data_eq {a b : String} (h : a.data = b.data) : a = b := by
  cases a
  cases b
  exact congrArg String.mk h

theorem GoodCmp.chain {α : Type _} {f g : α → α → Int} (hf : GoodCmp f) (hg : GoodCmp g) :
    GoodCmp (fun x y => chainCmp (f x y) (g x y)) := by
  constructor
  · intro x y
    show chainCmp (f x y) (g x y) = -(chainCmp (f y x) (g y x))
    by_cases h : f x y = 0
    · have h2 : f y x = 0 := by have := hf.antisym x y; omega
      rw [chainCmp_of_eq h, chainCmp_of_eq h2, hg.antisym x y]
    · have h2 : f y x ≠ 0 := by have := hf.antisym x y; omega
      rw [chainCmp_of_ne h, chainCmp_of_ne h2, hf.antisym x y]
  · intro x y z hxy hyz
    simp only at hxy hyz ⊢
    by_cases h1 : f x y = 0
    · rw [chainCmp_of_eq h1] at hxy
      by_cases h2 : f y z = 0
      · rw [chainCmp_of_eq h2] at hyz
        have hxz : f x z = 0 := by rw [hf.congr_zero x y h1 z, h2]
        rw [chainCmp_of_eq hxz]
        exact hg.trans_lt x y z hxy hyz
      · rw [chainCmp_of_ne h2] at hyz
        have hxz : f x z = f y z := hf.congr_zero x y h1 z
        rw [chainCmp_of_ne (by omega)]
        omega
    · rw [chainCmp_of_ne h1] at hxy
      by_cases h2 : f y z = 0
      · have hxz : f x y = f x z := hf.congr_zero_right h2 x
        rw [chainCmp_of_ne (by omega)]
        omega
      · rw [chainCmp_of_ne h2] at hyz
        have hxz := hf.trans_lt x y z hxy hyz
        rw [chainCmp_of_ne (by omega)]
        exact hxz
  · intro x y hxy z
    simp only at hxy ⊢
    have h1 : f x y = 0 := by
      by_cases h : f x y = 0
      · exact h
      · rw [chainCmp_of_ne h] at hxy; exact absurd hxy h
    have h2 : g x y = 0 := by
      rw [chainCmp_of_eq h1] at hxy; exact hxy
    rw [hf.congr_zero x y h1 z, hg.congr_zero x y h2 z]

theorem GoodCmp.comap {α β : Type _} {f : α → α → Int} (hf : GoodCmp f) (h : β → α) :
    GoodCmp (fun x y => f (h x) (h y)) := by
  constructor
  · intro x y; exact hf.antisym (h x) (h y)
  · intro x y z; exact hf.trans_lt (h x) (h y) (h z)
  · intro x y hxy z; exact hf.congr_zero (h x) (h y) hxy (h z)

theorem goodSub {α : Type _} (k : α → Nat) :
    GoodCmp (fun x y : α => (k x : Int) - (k y : Int)) := by
  constructor
  · intro x y; omega
  · intro x y z; omega
  · intro x y hxy z; omega

/-! ### Properties of `lexCmp` -/

theorem lexCmp_antisym (x y : List Char) : lexCmp x y = -(lexCmp y x) := by
  induction x generalizing y with
  | nil => cases y <;> simp [lexCmp]
  | cons a xs ih =>
    cases y with
    | nil => simp [lexCmp]
    | cons b ys =>
      simp only [lexCmp]
      rcases lt_trichotomy a b with h | h | h
      · simp [h, lt_asymm h]
      · subst h
        simp only [lt_irrefl, if_false]
        exact ih ys
      · simp [h, lt_asymm h]

theorem lexCmp_eq_zero_iff (x y : List Char) : lexCmp x y = 0 ↔ x = y := by
  induction x generalizing y with
  | nil => cases y <;> simp [lexCmp]
  | cons a xs ih =>
    cases y with
    | nil => simp [lexCmp]
    | cons b ys =>
      simp only [lexCmp]
      rcases lt_trichotomy a b with h | h | h
      · have hne : a ≠ b := ne_of_lt h
        simp [h, hne]
      · subst h
        simp only [lt_irrefl, if_false]
        simp [ih ys]
      · have hne : a ≠ b := (ne_of_lt h).symm
        simp [h, lt_asymm h, hne]

theorem lexCmp_trans_lt (x y z : List Char) (hxy : lexCmp x y < 0) (hyz : lexCmp y z < 0) :
    lexCmp x z < 0 := by
  induction x generalizing y z with
  | nil =>
    cases z with
    | nil =>
      cases y with
      | nil => exact hyz
      | cons b ys => simp [lexCmp] at hyz
    | cons c zs => simp [lexCmp]
  | cons a xs ih =>
    cases y with
    | nil => simp [lexCmp] at hxy
    | cons b ys =>
      cases z with
      | nil => simp [lexCmp] at hyz
      | cons c zs =>
        simp only [lexCmp] at hxy hyz ⊢
        rcases lt_trichotomy a b with h1 | h1 | h1
        · rcases lt_trichotomy b c with h2 | h2 | h2
          · rw [if_pos (lt_trans h1 h2)]; omega
          · subst h2; rw [if_pos h1]; omega
          · rw [if_neg (lt_asymm h2), if_pos h2] at hyz; omega
        · subst h1
          rcases lt_trichotomy a c with h2 | h2 | h2
          · rw [if_pos h2]; omega
          · subst h2
            rw [if_neg (lt_irrefl a), if_neg (lt_irrefl a)] at hxy hyz ⊢
            exact ih ys zs hxy hyz
          · rw [if_neg (lt_asymm h2), if_pos h2] at hyz; omega
        · rw [if_neg (lt_asymm h1), if_pos h1] at hxy; omega

theorem goodLexCmp : GoodCmp lexCmp := by
  constructor
  · exact lexCmp_antisym
  · exact lexCmp_trans_lt
  · intro x y hxy z
    rw [(lexCmp_eq_zero_iff x y).mp hxy]

theorem goodLexCmpS : GoodCmp lexCmpS := by
  have := goodLexCmp.comap (fun s : String => s.data)
  exact this

theorem lexCmpS_eq_zero_iff (a b : String) : lexCmpS a b = 0 ↔ a = b := by
  unfold lexCmpS
  rw [lexCmp_eq_zero_iff]
  constructor
  · exact string_data_eq
  · intro h; rw [h]

theorem lexLt_eq_true_iff (a b : String) : lexLt a b = true ↔ lexCmp a.data b.data < 0 := by
  simp [lexLt, lexCmpS]

theorem lexLt_eq_false_iff (a b : String) : lexLt a b = false ↔ 0 ≤ lexCmp a.data b.data := by
  simp [lexLt, lexCmpS, not_lt]

/-! ### Properties of the pre-release identifier comparison -/

/-- Three-way comparison of two single pre-release identifiers,
summarizing one iteration of the `compareSemver` loop body. -/
def hCmp (x y : String) : Int :=
  if isNumIdent x ∧ ¬isNumIdent y then -1
  else if ¬isNumIdent x ∧ isNumIdent y then 1
  else if isNumIdent x ∧ isNumIdent y then
    (natOfDigits x.data : Int) - (natOfDigits y.data : Int)
  else if x ≠ y then (if lexLt x y then -1 else 1) else 0

theorem cmpIdents_cons (x y : String) (xs ys : List String) :
    cmpIdents (x :: xs) (y :: ys) =
      if hCmp x y = 0 then cmpIdents xs ys else some (hCmp x y) := by
  simp only [cmpIdents, hCmp]
  by_cases hx : isNumIdent x = true <;> by_cases hy : isNumIdent y = true
  · simp only [hx, hy, not_true_eq_false, and_false, false_and, and_self, if_false, if_true]
    by_cases hd : (natOfDigits x.data : Int) - (natOfDigits y.data : Int) = 0
    · simp [hd]
    · simp [hd]
  · simp [hx, hy]
  · simp [hx, hy]
  · simp only [hx, hy, and_false, false_and, and_self, if_false, Bool.false_eq_true,
      not_false_eq_true, and_true, true_and]
    by_cases hxy : x = y
    · simp [hxy]
    · simp only [hxy, if_false, ne_eq, not_false_eq_true, if_true]
      split <;> simp

theorem hCmp_antisym (x y : String) : hCmp x y = -(hCmp y x) := by
  unfold hCmp
  by_cases hx : isNumIdent x = true <;> by_cases hy : isNumIdent y = true
  · simp only [hx, hy]
    simp only [not_true_eq_false, and_false, false_and, and_self, if_false, and_true,
      true_and, if_true]
    omega
  · simp [hx, hy]
  · simp [hx, hy]
  · simp only [hx, hy]
    simp only [Bool.false_eq_true, not_false_eq_true, and_false, false_and, and_self,
      if_false, and_true, true_and]
    by_cases hxy : x = y
    · simp [hxy]
    · have hyx : y ≠ x := fun h => hxy h.symm
      simp only [hxy, hyx, ne_eq, not_false_eq_true, if_true]
      rcases lt_trichotomy (lexCmp x.data y.data) 0 with h | h | h
      · have ht : lexLt x y = true := (lexLt_eq_true_iff x y).mpr h
        have hf : lexLt y x = false := by
          rw [lexLt_eq_false_iff, lexCmp_antisym]
          omega
        rw [ht, hf]
        norm_num
      · exact absurd (string_data_eq ((lexCmp_eq_zero_iff x.data y.data).mp h)) hxy
      · have hf : lexLt x y = false := by
          rw [lexLt_eq_false_iff]
          omega
        have ht : lexLt y x = true := by
          rw [lexLt_eq_true_iff, lexCmp_antisym]
          omega
        rw [ht, hf]
        norm_num

theorem hCmp_congr_zero (x y : String) (h : hCmp x y = 0) (z : String) :
    hCmp x z = hCmp y z := by
  unfold hCmp at h ⊢
  by_cases hx : isNumIdent x = true <;> by_cases hy : isNumIdent y = true
  · simp only [hx, hy] at h
    simp only [not_true_eq_false, and_false, false_and, and_self, if_false, if_true,
      and_true, true_and] at h
    have hval : natOfDigits x.data = natOfDigits y.data := by omega
    by_cases hz : isNumIdent z = true <;> simp [hx, hy, hz, hval]
  · simp [hx, hy] at h
  · simp [hx, hy] at h
  · simp only [hx, hy] at h
    simp only [Bool.false_eq_true, not_false_eq_true, and_false, false_and, and_self,
      if_false, and_true, true_and] at h
    have hxy : x = y := by
      by_cases hc : x = y
      · exact hc
      · simp only [hc, ne_eq, not_false_eq_true, if_true] at h
        split at h <;> omega
    rw [hxy]

theorem hCmp_trans_lt (x y z : String) (hxy : hCmp x y < 0) (hyz : hCmp y z < 0) :
    hCmp x z < 0 := by
  unfold hCmp at hxy hyz ⊢
  by_cases hx : isNumIdent x = true <;> by_cases hy : isNumIdent y = true <;>
    by_cases hz : isNumIdent z = true
  · simp only [hx, hy, hz, not_true_eq_false, and_false, false_and, and_self, if_false,
      if_true, and_true, true_and] at hxy hyz ⊢
    omega
  · simp only [hx, hy, hz, not_true_eq_false, not_false_eq_true, Bool.false_eq_true,
      and_false, false_and, and_self, and_true, true_and, if_false, if_true]
    norm_num
  · simp only [hx, hy, hz, not_true_eq_false, not_false_eq_true, Bool.false_eq_true,
      and_false, false_and, and_self, and_true, true_and, if_false, if_true] at hyz
    omega
  · simp only [hx, hy, hz, not_true_eq_false, not_false_eq_true, Bool.false_eq_true,
      and_false, false_and, and_self, and_true, true_and, if_false, if_true]
    norm_num
  · simp only [hx, hy, hz, not_true_eq_false, not_false_eq_true, Bool.false_eq_true,
      and_false, false_and, and_self, and_true, true_and, if_false, if_true] at hxy
    omega
  · simp only [hx, hy, hz, not_true_eq_false, not_false_eq_true, Bool.false_eq_true,
      and_false, false_and, and_self, and_true, true_and, if_false, if_true] at hxy
    omega
  · simp only [hx, hy, hz, not_true_eq_false, not_false_eq_true, Bool.false_eq_true,
      and_false, false_and, and_self, and_true, true_and, if_false, if_true] at hyz
    omega
  · simp only [hx, hy, hz, Bool.false_eq_true, not_false_eq_true, and_false, false_and,
      and_self, if_false, and_true, true_and] at hxy hyz ⊢
    by_cases hxyeq : x = y
    · subst hxyeq; exact hyz
    · simp only [hxyeq, ne_eq, not_false_eq_true, if_true] at hxy
      by_cases hyzeq : y = z
      · subst hyzeq
        simp only [hxyeq, ne_eq, not_false_eq_true, if_true]
        exact hxy
      · simp only [hyzeq, ne_eq, not_false_eq_true, if_true] at hyz
        have h1 : lexLt x y = true := by
          cases hb : lexLt x y with
          | false => rw [hb] at hxy; norm_num at hxy
          | true => rfl
        have h2 : lexLt y z = true := by
          cases hb : lexLt y z with
          | false => rw [hb] at hyz; norm_num at hyz
          | true => rfl
        rw [lexLt_eq_true_iff] at h1 h2
        have h3 : lexCmp x.data z.data < 0 := lexCmp_trans_lt x.data y.data z.data h1 h2
        have hxz : x ≠ z := by
          intro hc
          subst hc
          have hz0 : lexCmp x.data x.data = 0 := (lexCmp_eq_zero_iff _ _).mpr rfl
          omega
        simp only [hxz, ne_eq, not_false_eq_true, if_true]
        have ht : lexLt x z = true := (lexLt_eq_true_iff x z).mpr h3
        rw [ht]
        norm_num

theorem cmpIdents_ne_zero (xs ys : List String) (d : Int) (h : cmpIdents xs ys = some d) :
    d ≠ 0 := by
  induction xs generalizing ys d with
  | nil =>
    cases ys with
    | nil => simp [cmpIdents] at h
    | cons y ys => simp [cmpIdents] at h; omega
  | cons x xs ih =>
    cases ys with
    | nil => simp [cmpIdents] at h; omega
    | cons y ys =>
      rw [cmpIdents_cons] at h
      by_cases hc : hCmp x y = 0
      · rw [if_pos hc] at h; exact ih ys d h
      · rw [if_neg hc] at h
        simp at h
        omega

theorem cmpIdents_antisym (xs ys : List String) :
    cmpIdents ys xs = (cmpIdents xs ys).map (fun d => -d) := by
  induction xs generalizing ys with
  | nil => cases ys <;> simp [cmpIdents]
  | cons x xs ih =>
    cases ys with
    | nil => simp [cmpIdents]
    | cons y ys =>
      rw [cmpIdents_cons, cmpIdents_cons]
      by_cases hc : hCmp x y = 0
      · have hc2 : hCmp y x = 0 := by rw [hCmp_antisym]; omega
        rw [if_pos hc, if_pos hc2]
        exact ih ys
      · have hc2 : hCmp y x ≠ 0 := by rw [hCmp_antisym]; omega
        rw [if_neg hc, if_neg hc2]
        simp [hCmp_antisym y x]

theorem cmpIdents_congr (xs ys : List String) (h : cmpIdents xs ys = none) (zs : List String) :
    cmpIdents xs zs = cmpIdents ys zs := by
  induction xs generalizing ys zs with
  | nil =>
    cases ys with
    | nil => rfl
    | cons y ys => simp [cmpIdents] at h
  | cons x xs ih =>
    cases ys with
    | nil => simp [cmpIdents] at h
    | cons y ys =>
      rw [cmpIdents_cons] at h
      by_cases hc : hCmp x y = 0
      · rw [if_pos hc] at h
        cases zs with
        | nil => rfl
        | cons z zs =>
          rw [cmpIdents_cons, cmpIdents_cons, hCmp_congr_zero x y hc z, ih ys h]
      · rw [if_neg hc] at h; simp at h

theorem cmpIdents_trans_lt (xs ys zs : List String) (d e : Int)
    (hxy : cmpIdents xs ys = some d) (hd : d < 0)
    (hyz : cmpIdents ys zs = some e) (he : e < 0) :
    ∃ f, cmpIdents xs zs = some f ∧ f < 0 := by
  induction xs generalizing ys zs d e with
  | nil =>
    cases ys with
    | nil => simp [cmpIdents] at hxy
    | cons y ys =>
      cases zs with
      | nil => simp [cmpIdents] at hyz; omega
      | cons z zs => exact ⟨-1, by simp [cmpIdents], by omega⟩
  | cons x xs ih =>
    cases ys with
    | nil => simp [cmpIdents] at hxy; omega
    | cons y ys =>
      cases zs with
      | nil => simp [cmpIdents] at hyz; omega
      | cons z zs =>
        rw [cmpIdents_cons] at hxy hyz ⊢
        by_cases h1 : hCmp x y = 0
        · rw [if_pos h1] at hxy
          by_cases h2 : hCmp y z = 0
          · have h3 : hCmp x z = 0 := by rw [hCmp_congr_zero x y h1 z, h2]
            rw [if_pos h3]
            rw [if_pos h2] at hyz
            exact ih ys zs d e hxy hd hyz he
          · rw [if_neg h2] at hyz
            have h3 : hCmp x z = hCmp y z := hCmp_congr_zero x y h1 z
            have h4 : hCmp x z ≠ 0 := by
              rw [h3]; exact h2
            rw [if_neg h4]
            refine ⟨hCmp x z, rfl, ?_⟩
            rw [h3]
            simp at hyz
            omega
        · rw [if_neg h1] at hxy
          simp only [Option.some.injEq] at hxy
          by_cases h2 : hCmp y z = 0
          · have h3 : hCmp x z = hCmp x y := by
              rw [hCmp_antisym x z, hCmp_antisym x y, hCmp_congr_zero y z h2 x]
            have h4 : hCmp x z ≠ 0 := by rw [h3]; omega
            rw [if_neg h4]
            exact ⟨hCmp x z, rfl, by rw [h3]; omega⟩
          · rw [if_neg h2] at hyz
            simp only [Option.some.injEq] at hyz
            have h3 := hCmp_trans_lt x y z (by omega) (by omega)
            rw [if_neg (by omega)]
            exact ⟨hCmp x z, rfl, h3⟩

/-- The identifier-lists stage as a total Int-valued comparator. -/
def idCmp (xs ys : List String) : Int := (cmpIdents xs ys).getD 0

theorem goodIdCmp : GoodCmp idCmp := by
  constructor
  · intro x y
    unfold idCmp
    rw [cmpIdents_antisym y x]
    cases cmpIdents y x <;> simp
  · intro x y z hxy hyz
    unfold idCmp at hxy hyz ⊢
    rcases hcase1 : cmpIdents x y with - | d
    · rw [hcase1] at hxy; simp at hxy
    · rcases hcase2 : cmpIdents y z with - | e
      · rw [hcase2] at hyz; simp at hyz
      · rw [hcase1] at hxy
        rw [hcase2] at hyz
        simp at hxy hyz
        obtain ⟨f, hf, hflt⟩ := cmpIdents_trans_lt x y z d e hcase1 hxy hcase2 hyz
        rw [hf]
        simpa using hflt
  · intro x y hxy z
    unfold idCmp at hxy ⊢
    rcases hcase : cmpIdents x y with - | d
    · rw [cmpIdents_congr x y hcase z]
    · rw [hcase] at hxy
      simp at hxy
      exact absurd hxy (cmpIdents_ne_zero x y d hcase)

/-! ### The full semver comparator as a comparator chain -/

/-- Release versions rank above pre-release versions with the same triple. -/
def flagRank (v : Parsed) : Nat := if v.prerelease = ("") then 1 else 0

/-- The dot-separated pre-release identifiers of a parsed version. -/
def identsOf (v : Parsed) : List String := splitDots v.prerelease

/-- `compareSemver` on (original string, parsed components) pairs, written
as a lexicographic chain of well-behaved stages. -/
def svCmp (p q : String × Parsed) : Int :=
  chainCmp ((p.2.major : Int) - (q.2.major : Int))
  (chainCmp ((p.2.minor : Int) - (q.2.minor : Int))
  (chainCmp ((p.2.patch : Int) - (q.2.patch : Int))
  (chainCmp ((flagRank p.2 : Int) - (flagRank q.2 : Int))
  (chainCmp (idCmp (identsOf p.2) (identsOf q.2))
  (lexCmpS p.1 q.1)))))

theorem goodSvCmp : GoodCmp svCmp := by
  have h1 := goodSub (fun p : String × Parsed => p.2.major)
  have h2 := goodSub (fun p : String × Parsed => p.2.minor)
  have h3 := goodSub (fun p : String × Parsed => p.2.patch)
  have h4 := goodSub (fun p : String × Parsed => flagRank p.2)
  have h5 := goodIdCmp.comap (fun p : String × Parsed => identsOf p.2)
  have h6 := goodLexCmpS.comap (fun p : String × Parsed => p.1)
  exact h1.chain (h2.chain (h3.chain (h4.chain (h5.chain h6))))

theorem compareParsed_eq_svCmp (a b : String) (vA vB : Parsed) :
    compareParsed a b vA vB = svCmp (a, vA) (b, vB) := by
  unfold compareParsed svCmp
  by_cases h1 : vA.major = vB.major
  case neg =>
    have : (vA.major : Int) - (vB.major : Int) ≠ 0 := by omega
    simp [h1, chainCmp, this]
  case pos =>
  have e1 : (vA.major : Int) - (vB.major : Int) = 0 := by omega
  by_cases h2 : vA.minor = vB.minor
  case neg =>
    have : (vA.minor : Int) - (vB.minor : Int) ≠ 0 := by omega
    simp [h1, h2, chainCmp, e1, this]
  case pos =>
  have e2 : (vA.minor : Int) - (vB.minor : Int) = 0 := by omega
  by_cases h3 : vA.patch = vB.patch
  case neg =>
    have : (vA.patch : Int) - (vB.patch : Int) ≠ 0 := by omega
    simp [h1, h2, h3, chainCmp, e1, e2, this]
  case pos =>
  have e3 : (vA.patch : Int) - (vB.patch : Int) = 0 := by omega
  by_cases h4 : vA.prerelease = ("")
  · by_cases h5 : vB.prerelease = ("")
    · have e4 : (flagRank vA : Int) - (flagRank vB : Int) = 0 := by
        simp [flagRank, h4, h5]
      have e5 : idCmp (identsOf vA) (identsOf vB) = 0 := by
        unfold identsOf
        rw [h4, h5]
        decide
      simp [h1, h2, h3, h4, h5, chainCmp, e1, e2, e3, e4, e5]
    · have e4 : (flagRank vA : Int) - (flagRank vB : Int) = 1 := by
        simp [flagRank, h4, h5]
      simp [h1, h2, h3, h4, h5, chainCmp, e1, e2, e3, e4]
  · by_cases h5 : vB.prerelease = ("")
    · have e4 : (flagRank vA : Int) - (flagRank vB : Int) = -1 := by
        simp [flagRank, h4, h5]
      simp [h1, h2, h3, h4, h5, chainCmp, e1, e2, e3, e4]
    · have e4 : (flagRank vA : Int) - (flagRank vB : Int) = 0 := by
        simp [flagRank, h4, h5]
      simp only [h1, h2, h3, h4, h5, chainCmp, e1, e2, e3, e4, ne_eq, not_true_eq_false,
        if_false, not_false_eq_true, and_self, if_true, and_false, false_and]
      rcases hcase : cmpIdents (splitDots vA.prerelease) (splitDots vB.prerelease) with - | d
      · have : idCmp (identsOf vA) (identsOf vB) = 0 := by
          unfold idCmp identsOf
          rw [hcase]; rfl
        simp [this]
      · have hne := cmpIdents_ne_zero _ _ d hcase
        have : idCmp (identsOf vA) (identsOf vB) = d := by
          unfold idCmp identsOf
          rw [hcase]; rfl
        simp [this, hne]

theorem compareSemver_eq_svCmp {a b : String} {vA vB : Parsed}
    (ha : parseSemver a = some vA) (hb : parseSemver b = some vB) :
    compareSemver a b = some (svCmp (a, vA) (b, vB)) := by
  unfold compareSemver
  rw [ha, hb]
  show some (compareParsed a b vA vB) = some (svCmp (a, vA) (b, vB))
  rw [compareParsed_eq_svCmp]

theorem compareSemver_eq_zero {a b : String} {vA vB : Parsed}
    (ha : parseSemver a = some vA) (hb : parseSemver b = some vB)
    (h : compareSemver a b = some 0) : a = b := by
  rw [compareSemver_eq_svCmp ha hb] at h
  simp only [Option.some.injEq] at h
  unfold svCmp at h
  have h1 : lexCmpS a b = 0 := by
    simp only [chainCmp] at h
    split at h
    · omega
    · split at h
      · omega
      · split at h
        · omega
        · split at h
          · omega
          · split at h
            · omega
            · exact h
  exact (lexCmpS_eq_zero_iff a b).mp h1

/-! ### Soundness and evaluation lemmas for the normalize matchers -/

/-- The list does not start with a decimal digit (so a maximal digit run
cannot extend into it). -/
def noDigitHead : List Char → Prop
  | [] => True
  | c :: _ => ¬(c.isDigit = true)

theorem noNL_cons (c : Char) (l : List Char) :
    noNL (c :: l) = true ↔ ¬(c = '\n') ∧ noNL l = true := by
  simp [noNL]

theorem munchDigits_eq (d r : List Char) (hd : ∀ c ∈ d, c.isDigit = true)
    (hr : noDigitHead r) : munchDigits (d ++ r) = (d, r) := by
  induction d with
  | nil =>
    cases r with
    | nil => rfl
    | cons c rs =>
      have hc : ¬(c.isDigit = true) := hr
      simp [munchDigits, hc]
  | cons c d ih =>
    have hc : c.isDigit = true := hd c (List.mem_cons_self c d)
    have ih2 := ih (fun x hx => hd x (List.mem_cons_of_mem c hx))
    simp [munchDigits, hc, ih2]

theorem munchDigits_sound (s : List Char) :
    s = (munchDigits s).1 ++ (munchDigits s).2 ∧
    (∀ c ∈ (munchDigits s).1, c.isDigit = true) ∧ noDigitHead (munchDigits s).2 := by
  induction s with
  | nil =>
    refine ⟨rfl, ?_, trivial⟩
    intro c hc
    simp [munchDigits] at hc
  | cons c rest ih =>
    by_cases hc : c.isDigit = true
    · simp only [munchDigits, hc, if_true]
      refine ⟨?_, ?_, ih.2.2⟩
      · rw [List.cons_append]
        exact congrArg (c :: ·) ih.1
      · intro x hx
        rcases List.mem_cons.mp hx with h | h
        · rw [h]; exact hc
        · exact ih.2.1 x h
    · simp only [munchDigits, hc, if_false]
      exact ⟨rfl, by simp, hc⟩

theorem parseDotNum_eq (d r : List Char) (hd : d ≠ []) (hdd : ∀ c ∈ d, c.isDigit = true)
    (hr : noDigitHead r) : parseDotNum ('.' :: (d ++ r)) = some (d, r) := by
  simp [parseDotNum, munchDigits_eq d r hdd hr, hd]

theorem parseDotNum_sound (s d r : List Char) (h : parseDotNum s = some (d, r)) :
    s = '.' :: (d ++ r) ∧ d ≠ [] ∧ (∀ c ∈ d, c.isDigit = true) ∧ noDigitHead r := by
  cases s with
  | nil => simp [parseDotNum] at h
  | cons c rest =>
    by_cases hc : c = '.'
    · subst hc
      simp only [parseDotNum] at h
      by_cases hd : (munchDigits rest).1 = []
      · simp [hd] at h
      · simp only [hd, if_false, if_true, Option.some.injEq] at h
        have hs := munchDigits_sound rest
        have h1 : (munchDigits rest).1 = d := by rw [h]
        have h2 : (munchDigits rest).2 = r := by rw [h]
        refine ⟨?_, ?_, ?_, ?_⟩
        · rw [← h1, ← h2]; exact congrArg ('.' :: ·) hs.1
        · rw [← h1]; exact hd
        · rw [← h1]; exact hs.2.1
        · rw [← h2]; exact hs.2.2
    · simp [parseDotNum, hc] at h

/-- The characters the build group contributes to the rendered string. -/
def buildTail : Option (List Char) → List Char
  | none => []
  | some b => '+' :: b

/-- Validity of a (possibly missing) captured build part. -/
def validBuild : Option (List Char) → Prop
  | none => True
  | some b => b ≠ [] ∧ noNL b = true

theorem tailOk_sound (r : List Char) (b : Option (List Char)) (h : tailOk r = some b) :
    r = buildTail b ∧ validBuild b := by
  cases r with
  | nil =>
    simp only [tailOk, Option.some.injEq] at h
    rw [← h]
    exact ⟨rfl, trivial⟩
  | cons c rest =>
    by_cases hc : c = '+'
    · subst hc
      simp only [tailOk, if_true] at h
      by_cases hv : rest ≠ [] ∧ noNL rest = true
      · rw [if_pos hv] at h
        simp only [Option.some.injEq] at h
        rw [← h]
        exact ⟨rfl, hv⟩
      · rw [if_neg hv] at h
        exact absurd h (by simp)
    · simp [tailOk, hc] at h

theorem lazySplit_sound (r : List Char) (p : List Char) (b : Option (List Char))
    (h : lazySplit r = some (p, b)) :
    r = p ++ buildTail b ∧ p ≠ [] ∧ noNL p = true ∧ validBuild b := by
  induction r generalizing p b with
  | nil => simp [lazySplit] at h
  | cons c rest ih =>
    simp only [lazySplit] at h
    by_cases hc : c = '\n'
    · simp [hc] at h
    · rw [if_neg hc] at h
      rcases ht : tailOk rest with - | tb
      · rw [ht] at h
        rcases hl : lazySplit rest with - | pb
        · rw [hl] at h; simp at h
        · rw [hl] at h
          simp only [Option.some.injEq, Prod.mk.injEq] at h
          obtain ⟨hp, hb⟩ := h
          obtain ⟨hr1, hr2, hr3, hr4⟩ := ih pb.1 pb.2 (by rw [hl])
          subst hb
          rw [← hp]
          refine ⟨?_, by simp, ?_, hr4⟩
          · rw [List.cons_append, ← hr1]
          · rw [noNL_cons]
            exact ⟨hc, hr3⟩
      · rw [ht] at h
        simp only [Option.some.injEq, Prod.mk.injEq] at h
        obtain ⟨hp, hb⟩ := h
        obtain ⟨hr1, hr2⟩ := tailOk_sound rest tb ht
        subst hb
        subst hp
        refine ⟨?_, by simp, ?_, hr2⟩
        · rw [List.singleton_append, ← hr1]
        · rw [noNL_cons]
          exact ⟨hc, rfl⟩

theorem lazySplit_isSome (r : List Char) (hne : r ≠ []) (hnl : noNL r = true) :
    (lazySplit r).isSome = true := by
  induction r with
  | nil => exact absurd rfl hne
  | cons c rest ih =>
    rw [noNL_cons] at hnl
    simp only [lazySplit, if_neg hnl.1]
    rcases ht : tailOk rest with - | tb
    · cases rest with
      | nil => simp [tailOk] at ht
      | cons c2 r2 =>
        have := ih (by simp) hnl.2
        rcases hl : lazySplit (c2 :: r2) with - | pb
        · rw [hl] at this; simp at this
        · simp
    · simp

/-- The pre-release/build pair captured by a successful `fullMatch` is
stable: running the lazy split on exactly the characters it will render
reproduces the same pair. -/
def preBuildOk : Option (List Char) → Option (List Char) → Prop
  | some p, b => lazySplit (p ++ buildTail b) = some (p, b)
  | none, b => validBuild b

/-- An optional captured numeric group is a nonempty digit run. -/
def digitsOk : Option (List Char) → Prop
  | none => True
  | some d => d ≠ [] ∧ ∀ c ∈ d, c.isDigit = true

theorem optDot_eq_dot (d r : List Char) (hd : d ≠ []) (hdd : ∀ c ∈ d, c.isDigit = true)
    (hr : noDigitHead r) : optDot ('.' :: (d ++ r)) = (some d, r) := by
  simp [optDot, parseDotNum_eq d r hd hdd hr]

theorem optDot_eq_none (r : List Char) (h : parseDotNum r = none) : optDot r = (none, r) := by
  simp [optDot, h]

theorem optDot_sound (r : List Char) :
    ((optDot r).1 = none ∧ (optDot r).2 = r) ∨
    (∃ d, (optDot r).1 = some d ∧ d ≠ [] ∧ (∀ c ∈ d, c.isDigit = true) ∧
      noDigitHead (optDot r).2 ∧ r = '.' :: (d ++ (optDot r).2)) := by
  rcases hp : parseDotNum r with - | dr
  · left
    simp [optDot, hp]
  · right
    obtain ⟨h1, h2, h3, h4⟩ := parseDotNum_sound r dr.1 dr.2 (by rw [hp])
    have ho : optDot r = (some dr.1, dr.2) := by simp [optDot, hp]
    refine ⟨dr.1, by rw [ho], h2, h3, by rw [ho]; exact h4, by rw [ho]; exact h1⟩

theorem fmTail_sound (d1 : List Char) (m p : Option (List Char)) (t : List Char)
    (fm : FullMatch) (h : fmTail d1 m p t = some fm) :
    fm.major = d1 ∧ fm.minor = m ∧ fm.patch = p ∧ preBuildOk fm.prerelease fm.build ∧
    t = (match fm.prerelease with
         | some pp => '-' :: (pp ++ buildTail fm.build)
         | none => buildTail fm.build) := by
  cases t with
  | nil =>
    simp only [fmTail, Option.some.injEq] at h
    rw [← h]
    exact ⟨rfl, rfl, rfl, trivial, rfl⟩
  | cons c rest =>
    simp only [fmTail] at h
    by_cases hc : c = '-'
    · rw [if_pos hc] at h
      rcases hl : lazySplit rest with - | pb
      · rw [hl] at h; simp at h
      · rw [hl] at h
        simp only [Option.some.injEq] at h
        obtain ⟨hr1, -, -, -⟩ := lazySplit_sound rest pb.1 pb.2 (by rw [hl])
        rw [← h]
        refine ⟨rfl, rfl, rfl, ?_, ?_⟩
        · show lazySplit (pb.1 ++ buildTail pb.2) = some (pb.1, pb.2)
          rw [← hr1, hl]
        · rw [hc]
          show ('-' : Char) :: rest = '-' :: (pb.1 ++ buildTail pb.2)
          rw [← hr1]
    · rw [if_neg hc] at h
      by_cases hc2 : c = '+'
      · rw [if_pos hc2] at h
        by_cases hv : rest ≠ [] ∧ noNL rest = true
        · rw [if_pos hv] at h
          simp only [Option.some.injEq] at h
          rw [← h]
          exact ⟨rfl, rfl, rfl, hv, by rw [hc2]; rfl⟩
        · rw [if_neg hv] at h; exact absurd h (by simp)
      · rw [if_neg hc2] at h; exact absurd h (by simp)

theorem fullMatch_sound (s : List Char) (fm : FullMatch) (h : fullMatch s = some fm) :
    (fm.major ≠ [] ∧ ∀ c ∈ fm.major, c.isDigit = true) ∧ digitsOk fm.minor ∧
    digitsOk fm.patch ∧ preBuildOk fm.prerelease fm.build := by
  simp only [fullMatch] at h
  by_cases hd : (munchDigits s).1 = []
  · simp [hd] at h
  · rw [if_neg hd] at h
    have hms := munchDigits_sound s
    obtain ⟨e1, e2, e3, hpb, -⟩ :=
      fmTail_sound (munchDigits s).1 (optDot (munchDigits s).2).1
        (optDot (optDot (munchDigits s).2).2).1 (optDot (optDot (munchDigits s).2).2).2 fm h
    refine ⟨?_, ?_, ?_, hpb⟩
    · rw [e1]
      exact ⟨hd, hms.2.1⟩
    · rw [e2]
      rcases optDot_sound (munchDigits s).2 with ⟨h1, -⟩ | ⟨d, h1, h2, h3, -, -⟩
      · rw [h1]; trivial
      · rw [h1]; exact ⟨h2, h3⟩
    · rw [e3]
      rcases optDot_sound (optDot (munchDigits s).2).2 with ⟨h1, -⟩ | ⟨d, h1, h2, h3, -, -⟩
      · rw [h1]; trivial
      · rw [h1]; exact ⟨h2, h3⟩

/-- The rendered tail of a full match: pre-release part then build part. -/
def tailChars (pre bld : Option (List Char)) : List Char :=
  match pre with
  | some p => '-' :: (p ++ buildTail bld)
  | none => buildTail bld

theorem renderFull_parts (d1 : List Char) (m p : Option (List Char))
    (pre bld : Option (List Char)) :
    renderFull ⟨d1, m, p, pre, bld⟩ =
      d1 ++ '.' :: (m.getD [('0')] ++ '.' :: (p.getD [('0')] ++ tailChars pre bld)) := by
  cases pre with
  | some pp =>
    cases bld with
    | some bb => simp [renderFull, tailChars, buildTail]
    | none => simp [renderFull, tailChars, buildTail]
  | none =>
    cases bld with
    | some bb => simp [renderFull, tailChars, buildTail]
    | none => simp [renderFull, tailChars, buildTail]

theorem noDigitHead_tailChars (pre bld : Option (List Char)) :
    noDigitHead (tailChars pre bld) := by
  cases pre with
  | some pp => simp [tailChars, noDigitHead]
  | none =>
    cases bld with
    | some bb => simp [tailChars, buildTail, noDigitHead]
    | none => simp [tailChars, buildTail, noDigitHead]

theorem fullMatch_render (d1 d2 d3 : List Char) (pre bld : Option (List Char))
    (h1 : d1 ≠ []) (h1d : ∀ c ∈ d1, c.isDigit = true)
    (h2 : d2 ≠ []) (h2d : ∀ c ∈ d2, c.isDigit = true)
    (h3 : d3 ≠ []) (h3d : ∀ c ∈ d3, c.isDigit = true)
    (hpb : preBuildOk pre bld) :
    fullMatch (d1 ++ '.' :: (d2 ++ '.' :: (d3 ++ tailChars pre bld))) =
      some ⟨d1, some d2, some d3, pre, bld⟩ := by
  have hm1 : munchDigits (d1 ++ '.' :: (d2 ++ '.' :: (d3 ++ tailChars pre bld))) =
      (d1, '.' :: (d2 ++ '.' :: (d3 ++ tailChars pre bld))) :=
    munchDigits_eq d1 _ h1d (by simp [noDigitHead])
  have ho1 : optDot ('.' :: (d2 ++ '.' :: (d3 ++ tailChars pre bld))) =
      (some d2, '.' :: (d3 ++ tailChars pre bld)) :=
    optDot_eq_dot d2 _ h2 h2d (by simp [noDigitHead])
  have ho2 : optDot ('.' :: (d3 ++ tailChars pre bld)) = (some d3, tailChars pre bld) :=
    optDot_eq_dot d3 _ h3 h3d (noDigitHead_tailChars pre bld)
  simp only [fullMatch, hm1, ho1, ho2, h1, if_neg]
  rw [if_neg (by simp [h1])]
  cases pre with
  | some pp =>
    show fmTail d1 (some d2) (some d3) ('-' :: (pp ++ buildTail bld)) = _
    have hls : lazySplit (pp ++ buildTail bld) = some (pp, bld) := hpb
    simp [fmTail, hls]
  | none =>
    cases bld with
    | some bb =>
      show fmTail d1 (some d2) (some d3) ('+' :: bb) = _
      have hv : bb ≠ [] ∧ noNL bb = true := hpb
      simp [fmTail, hv]
    | none => rfl

theorem alternateMatch_implies_fullMatch (s : List Char) (am : AltMatch)
    (h : alternateMatch s = some am) : (fullMatch s).isSome = true := by
  simp only [alternateMatch] at h
  by_cases hd : (munchDigits s).1 = []
  · simp [hd] at h
  · rw [if_neg hd] at h
    simp only [fullMatch]
    rw [if_neg hd]
    rcases hr : (munchDigits s).2 with - | ⟨c, rest⟩
    · rw [optDot_eq_none [] (by simp [parseDotNum]), optDot_eq_none [] (by simp [parseDotNum])]
      simp [fmTail]
    · rw [hr] at h
      have h2 : (if c = '-' then
          (if rest ≠ [] ∧ noNL rest = true then
            some (⟨(munchDigits s).1, some rest⟩ : AltMatch) else none)
          else none) = some am := h
      by_cases hc : c = '-'
      · rw [if_pos hc] at h2
        by_cases hv : rest ≠ [] ∧ noNL rest = true
        · have hpd : parseDotNum (c :: rest) = none := by
            simp [parseDotNum, hc]
          rw [optDot_eq_none _ hpd, optDot_eq_none _ hpd]
          subst hc
          simp only [fmTail, if_pos rfl]
          have := lazySplit_isSome rest hv.1 hv.2
          rcases hl : lazySplit rest with - | pb
          · rw [hl] at this; simp at this
          · simp [hl]
        · rw [if_neg hv] at h2; exact absurd h2 (by simp)
      · rw [if_neg hc] at h2; exact absurd h2 (by simp)

/-- Strict-mode normalization succeeds exactly through the primary matcher:
the secondary pattern accepts only inputs the primary one also accepts. -/
theorem normalizeSemver_strict_fullMatch (x y : String)
    (h : normalizeSemver x true = some y) :
    ∃ fm, fullMatch (stripV x.data) = some fm ∧ y = ⟨renderFull fm⟩ := by
  simp only [normalizeSemver] at h
  rcases hf : fullMatch (stripV x.data) with - | fm
  · rw [hf] at h
    rcases ha : alternateMatch (stripV x.data) with - | am
    · rw [ha] at h; simp at h
    · have := alternateMatch_implies_fullMatch (stripV x.data) am ha
      rw [hf] at this
      simp at this
  · rw [hf] at h
    simp only [Option.some.injEq] at h
    exact ⟨fm, rfl, h.symm⟩

theorem stripV_digit (d : List Char) (hne : d ≠ []) (hd : ∀ c ∈ d, c.isDigit = true)
    (r : List Char) : stripV (d ++ r) = d ++ r := by
  cases d with
  | nil => exact absurd rfl hne
  | cons c rest =>
    have hc : c.isDigit = true := hd c (List.mem_cons_self c rest)
    have hv : ¬(c = 'v' ∨ c = 'V') := by
      rintro (rfl | rfl) <;> simp [Char.isDigit] at hc
    simp [stripV, hv]

/-- The canonical shape `MAJOR.MINOR.PATCH[-PRERELEASE][+BUILD]`: three
nonempty digit runs separated by dots, an optional nonempty pre-release
introduced by a hyphen, an optional nonempty build introduced by a plus. -/
def IsCanonical (y : String) : Prop :=
  ∃ d1 d2 d3 pre bld,
    y.data = d1 ++ '.' :: (d2 ++ '.' :: (d3 ++ tailChars pre bld)) ∧
    (d1 ≠ [] ∧ ∀ c ∈ d1, c.isDigit = true) ∧
    (d2 ≠ [] ∧ ∀ c ∈ d2, c.isDigit = true) ∧
    (d3 ≠ [] ∧ ∀ c ∈ d3, c.isDigit = true) ∧
    (∀ p, pre = some p → p ≠ []) ∧ (∀ b, bld = some b → b ≠ [])

theorem getD_digitsOk (m : Option (List Char)) (h : digitsOk m) :
    m.getD [('0')] ≠ [] ∧ ∀ c ∈ m.getD [('0')], c.isDigit = true := by
  cases m with
  | none => simp
  | some d => exact ⟨h.1, h.2⟩

/-- Core idempotence: a strict-mode normalization output re-normalizes to
itself, and is canonical. -/
theorem normalizeSemver_idem (x y : String) (h : normalizeSemver x true = some y) :
    normalizeSemver y true = some y ∧ IsCanonical y := by
  obtain ⟨fm, hfm, hy⟩ := normalizeSemver_strict_fullMatch x y h
  obtain ⟨⟨hma, hmd⟩, hmi, hpa, hpb⟩ := fullMatch_sound (stripV x.data) fm hfm
  obtain ⟨h2ne, h2d⟩ := getD_digitsOk fm.minor hmi
  obtain ⟨h3ne, h3d⟩ := getD_digitsOk fm.patch hpa
  have hdata : y.data = fm.major ++ '.' :: (fm.minor.getD [('0')] ++ '.' ::
      (fm.patch.getD [('0')] ++ tailChars fm.prerelease fm.build)) := by
    rw [hy]
    show (renderFull fm).asString.data = _
    have : renderFull fm = renderFull ⟨fm.major, fm.minor, fm.patch, fm.prerelease, fm.build⟩ := rfl
    rw [show (renderFull fm).asString.data = renderFull fm from rfl, this,
      renderFull_parts]
  constructor
  · have hfull : fullMatch y.data =
        some ⟨fm.major, some (fm.minor.getD [('0')]), some (fm.patch.getD [('0')]),
          fm.prerelease, fm.build⟩ := by
      rw [hdata]
      exact fullMatch_render fm.major _ _ fm.prerelease fm.build hma hmd h2ne h2d h3ne h3d hpb
    have hstrip : stripV y.data = y.data := by
      rw [hdata]
      exact stripV_digit fm.major hma hmd _
    simp only [normalizeSemver, hstrip, hfull]
    have hrender : renderFull ⟨fm.major, some (fm.minor.getD [('0')]),
        some (fm.patch.getD [('0')]), fm.prerelease, fm.build⟩ = y.data := by
      rw [renderFull_parts, hdata]
      rfl
    rw [hrender]
  · refine ⟨fm.major, fm.minor.getD [('0')], fm.patch.getD [('0')], fm.prerelease, fm.build,
      hdata, ⟨hma, hmd⟩, ⟨h2ne, h2d⟩, ⟨h3ne, h3d⟩, ?_, ?_⟩
    · intro p hp
      rw [hp] at hpb
      exact (lazySplit_sound _ p fm.build hpb).2.1
    · intro b hb
      cases hpre : fm.prerelease with
      | none =>
        rw [hpre, hb] at hpb
        exact hpb.1
      | some pp =>
        rw [hpre] at hpb
        rw [hb] at hpb
        exact ((lazySplit_sound _ pp (some b) hpb).2.2.2).1

/-! ### Evaluation of `normalizeSemver` on the accepted partial shapes -/

theorem digit_not_vV (c : Char) (h : c.isDigit = true) : ¬(c = 'v' ∨ c = 'V') := by
  rintro (rfl | rfl) <;> simp [Char.isDigit] at h

theorem stripV_digits (d : List Char) (hne : d ≠ []) (hd : ∀ c ∈ d, c.isDigit = true) :
    stripV d = d := by
  cases d with
  | nil => exact absurd rfl hne
  | cons c rest =>
    simp [stripV, digit_not_vV c (hd c (List.mem_cons_self c rest))]

theorem fullMatch_digits (d : List Char) (hne : d ≠ []) (hd : ∀ c ∈ d, c.isDigit = true) :
    fullMatch d = some ⟨d, none, none, none, none⟩ := by
  have hm : munchDigits d = (d, []) := by
    have := munchDigits_eq d [] hd trivial
    rwa [List.append_nil] at this
  simp only [fullMatch, hm]
  rw [if_neg (by simp [hne]),
    optDot_eq_none [] (by simp [parseDotNum]), optDot_eq_none [] (by simp [parseDotNum])]
  rfl

theorem normalizeSemver_digits (d : List Char) (hne : d ≠ [])
    (hd : ∀ c ∈ d, c.isDigit = true) :
    normalizeSemver ⟨d⟩ true = some ⟨d ++ ('.' :: '0' :: '.' :: '0' :: [])⟩ ∧
    normalizeSemver ⟨'v' :: d⟩ true = some ⟨d ++ ('.' :: '0' :: '.' :: '0' :: [])⟩ ∧
    normalizeSemver ⟨'V' :: d⟩ true = some ⟨d ++ ('.' :: '0' :: '.' :: '0' :: [])⟩ := by
  have hrender : renderFull ⟨d, none, none, none, none⟩ = d ++ ('.' :: '0' :: '.' :: '0' :: []) := by
    simp [renderFull]
  refine ⟨?_, ?_, ?_⟩
  · show (match fullMatch (stripV d) with
      | some fm => some (⟨renderFull fm⟩ : String)
      | none => _) = _
    rw [stripV_digits d hne hd, fullMatch_digits d hne hd]
    exact congrArg (fun l => some (⟨l⟩ : String)) hrender
  · show (match fullMatch (stripV ('v' :: d)) with
      | some fm => some (⟨renderFull fm⟩ : String)
      | none => _) = _
    rw [show stripV ('v' :: d) = d by simp [stripV], fullMatch_digits d hne hd]
    exact congrArg (fun l => some (⟨l⟩ : String)) hrender
  · show (match fullMatch (stripV ('V' :: d)) with
      | some fm => some (⟨renderFull fm⟩ : String)
      | none => _) = _
    rw [show stripV ('V' :: d) = d by simp [stripV], fullMatch_digits d hne hd]
    exact congrArg (fun l => some (⟨l⟩ : String)) hrender

theorem normalizeSemver_two_digits (d1 d2 : List Char)
    (h1 : d1 ≠ []) (h1d : ∀ c ∈ d1, c.isDigit = true)
    (h2 : d2 ≠ []) (h2d : ∀ c ∈ d2, c.isDigit = true) :
    normalizeSemver ⟨d1 ++ '.' :: d2⟩ true =
      some ⟨d1 ++ '.' :: (d2 ++ ('.' :: '0' :: []))⟩ := by
  have hm : munchDigits (d1 ++ '.' :: d2) = (d1, '.' :: d2) :=
    munchDigits_eq d1 ('.' :: d2) h1d (by simp [noDigitHead])
  have ho1 : optDot ('.' :: d2) = (some d2, []) := by
    have := optDot_eq_dot d2 [] h2 h2d trivial
    rwa [List.append_nil] at this
  have hfm : fullMatch (d1 ++ '.' :: d2) = some ⟨d1, some d2, none, none, none⟩ := by
    simp only [fullMatch, hm]
    rw [if_neg (by simp [h1]), ho1, optDot_eq_none [] (by simp [parseDotNum])]
    rfl
  show (match fullMatch (stripV (d1 ++ '.' :: d2)) with
      | some fm => some (⟨renderFull fm⟩ : String)
      | none => _) = _
  rw [stripV_digit d1 h1 h1d ('.' :: d2), hfm]
  have hrender : renderFull ⟨d1, some d2, none, none, none⟩ =
      d1 ++ '.' :: (d2 ++ ('.' :: '0' :: [])) := by
    simp [renderFull]
  exact congrArg (fun l => some (⟨l⟩ : String)) hrender

theorem normalizeSemver_hyphen (d t : List Char) (hne : d ≠ [])
    (hd : ∀ c ∈ d, c.isDigit = true) (htne : t ≠ []) (htnl : noNL t = true) :
    normalizeSemver ⟨d ++ '-' :: t⟩ true =
      some ⟨d ++ ('.' :: '0' :: '.' :: '0' :: '-' :: t)⟩ := by
  have hm : munchDigits (d ++ '-' :: t) = (d, '-' :: t) :=
    munchDigits_eq d ('-' :: t) hd (by simp [noDigitHead])
  have hpd : parseDotNum ('-' :: t) = none := by simp [parseDotNum]
  have hsome := lazySplit_isSome t htne htnl
  rcases hl : lazySplit t with - | pb
  · rw [hl] at hsome; simp at hsome
  · obtain ⟨ht1, -, -, -⟩ := lazySplit_sound t pb.1 pb.2 (by rw [hl])
    have hfm : fullMatch (d ++ '-' :: t) = some ⟨d, none, none, some pb.1, pb.2⟩ := by
      simp only [fullMatch, hm]
      rw [if_neg (by simp [hne]), optDot_eq_none _ hpd, optDot_eq_none _ hpd]
      simp [fmTail, hl]
    show (match fullMatch (stripV (d ++ '-' :: t)) with
        | some fm => some (⟨renderFull fm⟩ : String)
        | none => _) = _
    rw [stripV_digit d hne hd ('-' :: t), hfm]
    have hrender : renderFull ⟨d, none, none, some pb.1, pb.2⟩ =
        d ++ ('.' :: '0' :: '.' :: '0' :: '-' :: t) := by
      rw [renderFull_parts]
      show d ++ '.' :: (['0'] ++ '.' :: (['0'] ++ tailChars (some pb.1) pb.2)) = _
      rw [show tailChars (some pb.1) pb.2 = '-' :: (pb.1 ++ buildTail pb.2) from rfl, ← ht1]
      simp
    exact congrArg (fun l => some (⟨l⟩ : String)) hrender

theorem normalizeSemver_plus (d t : List Char) (hne : d ≠ [])
    (hd : ∀ c ∈ d, c.isDigit = true) (htne : t ≠ []) (htnl : noNL t = true) :
    normalizeSemver ⟨d ++ '+' :: t⟩ true =
      some ⟨d ++ ('.' :: '0' :: '.' :: '0' :: '+' :: t)⟩ := by
  have hm : munchDigits (d ++ '+' :: t) = (d, '+' :: t) :=
    munchDigits_eq d ('+' :: t) hd (by simp [noDigitHead])
  have hpd : parseDotNum ('+' :: t) = none := by simp [parseDotNum]
  have hfm : fullMatch (d ++ '+' :: t) = some ⟨d, none, none, none, some t⟩ := by
    simp only [fullMatch, hm]
    rw [if_neg (by simp [hne]), optDot_eq_none _ hpd, optDot_eq_none _ hpd]
    simp [fmTail, htne, htnl]
  show (match fullMatch (stripV (d ++ '+' :: t)) with
      | some fm => some (⟨renderFull fm⟩ : String)
      | none => _) = _
  rw [stripV_digit d hne hd ('+' :: t), hfm]
  have hrender : renderFull ⟨d, none, none, none, some t⟩ =
      d ++ ('.' :: '0' :: '.' :: '0' :: '+' :: t) := by
    simp [renderFull]
  exact congrArg (fun l => some (⟨l⟩ : String)) hrender

theorem normalizeSemver_two_hyphen (d1 d2 t : List Char)
    (h1 : d1 ≠ []) (h1d : ∀ c ∈ d1, c.isDigit = true)
    (h2 : d2 ≠ []) (h2d : ∀ c ∈ d2, c.isDigit = true)
    (htne : t ≠ []) (htnl : noNL t = true) :
    normalizeSemver ⟨d1 ++ '.' :: (d2 ++ '-' :: t)⟩ true =
      some ⟨d1 ++ '.' :: (d2 ++ ('.' :: '0' :: '-' :: t))⟩ := by
  have hm : munchDigits (d1 ++ '.' :: (d2 ++ '-' :: t)) = (d1, '.' :: (d2 ++ '-' :: t)) :=
    munchDigits_eq d1 _ h1d (by simp [noDigitHead])
  have ho1 : optDot ('.' :: (d2 ++ '-' :: t)) = (some d2, '-' :: t) :=
    optDot_eq_dot d2 ('-' :: t) h2 h2d (by simp [noDigitHead])
  have hpd : parseDotNum ('-' :: t) = none := by simp [parseDotNum]
  have hsome := lazySplit_isSome t htne htnl
  rcases hl : lazySplit t with - | pb
  · rw [hl] at hsome; simp at hsome
  · obtain ⟨ht1, -, -, -⟩ := lazySplit_sound t pb.1 pb.2 (by rw [hl])
    have hfm : fullMatch (d1 ++ '.' :: (d2 ++ '-' :: t)) =
        some ⟨d1, some d2, none, some pb.1, pb.2⟩ := by
      simp only [fullMatch, hm]
      rw [if_neg (by simp [h1]), ho1, optDot_eq_none _ hpd]
      simp [fmTail, hl]
    show (match fullMatch (stripV (d1 ++ '.' :: (d2 ++ '-' :: t))) with
        | some fm => some (⟨renderFull fm⟩ : String)
        | none => _) = _
    rw [stripV_digit d1 h1 h1d _, hfm]
    have hrender : renderFull ⟨d1, some d2, none, some pb.1, pb.2⟩ =
        d1 ++ '.' :: (d2 ++ ('.' :: '0' :: '-' :: t)) := by
      rw [renderFull_parts]
      show d1 ++ '.' :: (d2 ++ '.' :: (['0'] ++ tailChars (some pb.1) pb.2)) = _
      rw [show tailChars (some pb.1) pb.2 = '-' :: (pb.1 ++ buildTail pb.2) from rfl, ← ht1]
      simp
    exact congrArg (fun l => some (⟨l⟩ : String)) hrender

theorem normalizeSemver_two_plus (d1 d2 t : List Char)
    (h1 : d1 ≠ []) (h1d : ∀ c ∈ d1, c.isDigit = true)
    (h2 : d2 ≠ []) (h2d : ∀ c ∈ d2, c.isDigit = true)
    (htne : t ≠ []) (htnl : noNL t = true) :
    normalizeSemver ⟨d1 ++ '.' :: (d2 ++ '+' :: t)⟩ true =
      some ⟨d1 ++ '.' :: (d2 ++ ('.' :: '0' :: '+' :: t))⟩ := by
  have hm : munchDigits (d1 ++ '.' :: (d2 ++ '+' :: t)) = (d1, '.' :: (d2 ++ '+' :: t)) :=
    munchDigits_eq d1 _ h1d (by simp [noDigitHead])
  have ho1 : optDot ('.' :: (d2 ++ '+' :: t)) = (some d2, '+' :: t) :=
    optDot_eq_dot d2 ('+' :: t) h2 h2d (by simp [noDigitHead])
  have hpd : parseDotNum ('+' :: t) = none := by simp [parseDotNum]
  have hfm : fullMatch (d1 ++ '.' :: (d2 ++ '+' :: t)) =
      some ⟨d1, some d2, none, none, some t⟩ := by
    simp only [fullMatch, hm]
    rw [if_neg (by simp [h1]), ho1, optDot_eq_none _ hpd]
    simp [fmTail, htne, htnl]
  show (match fullMatch (stripV (d1 ++ '.' :: (d2 ++ '+' :: t))) with
      | some fm => some (⟨renderFull fm⟩ : String)
      | none => _) = _
  rw [stripV_digit d1 h1 h1d _, hfm]
  have hrender : renderFull ⟨d1, some d2, none, none, some t⟩ =
      d1 ++ '.' :: (d2 ++ ('.' :: '0' :: '+' :: t)) := by
    rw [renderFull_parts]
    show d1 ++ '.' :: (d2 ++ '.' :: (['0'] ++ tailChars none (some t))) = _
    rw [show tailChars none (some t) = '+' :: t from rfl]
    simp
  exact congrArg (fun l => some (⟨l⟩ : String)) hrender

/-- Strict and lenient mode agree on accepted inputs; on rejected inputs
strict mode throws while lenient mode returns the zero version. -/
theorem normalizeSemver_modes (x : String) :
    (normalizeSemver x true = none → normalizeSemver x false = some ("0.0.0")) ∧
    (∀ y, normalizeSemver x true = some y → normalizeSemver x false = some y) := by
  simp only [normalizeSemver]
  rcases hf : fullMatch (stripV x.data) with - | fm
  · rcases ha : alternateMatch (stripV x.data) with - | am
    · simp [hf, ha]
    · simp [hf, ha]
  · simp [hf]

/-! ## Migration engine (`src/migrate.ts`)

The engine is modelled in the configuration the repository's tests use: an
external active-version store is configured through both `getActiveVersion`
and `setActiveVersion` options, and the store's current content is the
`stored` field of the engine state.  The `ItemCollection` dependency is an
external package whose source is not part of this repository; per the spec
(§4.2) it is an ordered, uniquely-keyed container kept sorted by the semver
comparator with positional access and an active marker — modelled here as a
sorted list plus the `activeMem` marker. -/

/-- A registered `Version` instance: the normalized version string together
with its parsed segments.  The `up`/`down` action callables are identified
by the version string; their outcomes are supplied by an `Env` oracle. -/
structure Entry where
  version : String
  major : Nat
  minor : Nat
  patch : Nat
  prerelease : String
  build : String
deriving DecidableEq, Repr

/-- Embedding of the `Version` constructor: rejects an empty version label,
normalizes the label (strict), parses the normalized form.  `none` models a
thrown error. -/
def mkEntry (label : String) : Option Entry :=
  if label = ("") then none
  else
    match normalizeSemver label true with
    | none => none
    | some nv =>
      match parseSemver nv with
      | none => none
      | some p => some ⟨nv, p.major, p.minor, p.patch, p.prerelease, p.build⟩

/-- The collection's sort function (`#compareFn`), a wrapper around
`compareSemver` on the two normalized version strings.  Constructed entries
always parse, so the `getD` default is never taken. -/
def cmpEntry (x y : Entry) : Int := (compareSemver x.version y.version).getD 0

/-- Modelled from the spec: `ItemCollection.add` of the external
`@marianmeres/item-collection` package (not part of this repository)
"inserts, preserving sorted order by the SemVer comparator" (§4.2),
embedded as sorted insertion. -/
def insertSorted (e : Entry) : List Entry → List Entry
  | [] => [e]
  | x :: xs => if cmpEntry e x < 0 then e :: x :: xs else x :: insertSorted e xs

/-- Engine state: the sorted collection of versions, the collection's
in-memory active marker, and the content of the external active-version
store. -/
structure MState where
  items : List Entry
  activeMem : Option String
  stored : Option String
deriving DecidableEq, Repr

/-- The engine with no versions registered and nothing active. -/
def initState : MState := ⟨[], none, none⟩

/-- Error kinds thrown by the engine (§7 of the spec). `storeFailed` is the
opaque exception raised by the external setter itself, before the callers
wrap it. -/
inductive MErr where
  | invalidVersion (label : String)
  | duplicateVersion (label : String)
  | versionNotFound (label : String)
  | targetNotFound (target : String)
  | noActiveVersion
  | upgradeFailed (version : String)
  | downgradeFailed (version : String)
  | persistenceFailed (version : Option String)
  | uninstallFailed
  | storeFailed
deriving DecidableEq, Repr

/-- Observable external calls made during an operation. -/
inductive Event where
  | upAct (version : String)
  | downAct (version : String)
  | extSet (version : Option String)
deriving DecidableEq, Repr

/-- Outcome oracle for the opaque external collaborators: whether a
version's `up`/`down` action throws, and whether the external setter throws
when invoked with a given value. -/
structure Env where
  upFails : String → Bool
  downFails : String → Bool
  setFails : Option String → Bool

/-- The environment in which every external call succeeds. -/
def allOk : Env := ⟨fun _ => false, fun _ => false, fun _ => false⟩

/-- The `available` getter: all registered version strings in sort order. -/
def available (s : MState) : List String := s.items.map (fun e => e.version)

/-- Embedding of `Migrate.addVersion`: constructs a `Version`, rejects a
normalized duplicate, inserts into the sorted collection. -/
def addVersion (s : MState) (label : String) : Except MErr MState :=
  match mkEntry label with
  | none => .error (.invalidVersion label)
  | some e =>
    if s.items.any (fun x => x.version = e.version) then
      .error (.duplicateVersion label)
    else .ok { s with items := insertSorted e s.items }

/-- Registers a list of version labels in order, stopping at the first
failure. -/
def addVersions (s : MState) : List String → Except MErr MState
  | [] => .ok s
  | l :: ls =>
    match addVersion s l with
    | .error e => .error e
    | .ok s1 => addVersions s1 ls

/-- Embedding of `Migrate.getActiveVersion` with an external getter
configured: reads the store; a truthy (non-empty) result is normalized, a
falsy result is returned as-is (`version ?? undefined` maps `null` and
`undefined` to `undefined` but keeps the empty string). -/
def getActiveVersion (s : MState) : Except MErr (Option String) :=
  match s.stored with
  | none => .ok none
  | some v =>
    if v ≠ ("") then
      match normalizeSemver v true with
      | none => .error (.invalidVersion v)
      | some nv => .ok (some nv)
    else .ok (some v)

/-- Positional access `ItemCollection.at` with negative indices counting
from the end. -/
def atIdx (l : List Entry) (i : Int) : Option Entry :=
  if i < 0 then
    let j : Int := (l.length : Int) + i
    if j < 0 then none else l.get? j.toNat
  else l.get? i.toNat

/-- Embedding of `Migrate.indexOf`: normalizes the label (strict — an error
models the thrown `TypeError` on a malformed label) and returns the sorted
position of the version, or `-1` when absent. -/
def indexOf (s : MState) (version : String) : Except MErr Int :=
  match normalizeSemver version true with
  | none => .error (.invalidVersion version)
  | some nv =>
    match s.items.findIdx? (fun e => e.version = nv) with
    | some i => .ok (i : Int)
    | none => .ok (-1)

/-- Embedding of `Migrate.findVersion`: looks up by (normalized) version;
with `assert` an absent version is an error, otherwise `none` is returned. -/
def findVersion (s : MState) (version : String) (assert : Bool) : Except MErr (Option Entry) :=
  match indexOf s version with
  | .error e => .error e
  | .ok i =>
    let out := if i > -1 then atIdx s.items i else none
    match out with
    | none => if assert then .error (.versionNotFound version) else .ok none
    | some e => .ok (some e)

/-- The argument of `Migrate.setActiveVersion`: `undefined`, the sentinels,
an explicit label, or a `Version` instance. -/
inductive SetTarget where
  | unset
  | latest
  | initial
  | explicit (label : String)
  | inst (e : Entry)
deriving Repr

/-- Resolution of a concrete (or missing) version string inside
`setActiveVersion`: the version must be truthy and present in the
collection; on success the in-memory active marker is updated. -/
def resolveSetVersion (s : MState) (v? : Option String) : Except MErr MState :=
  match v? with
  | none => .error (.versionNotFound (""))
  | some nv =>
    if nv = ("") then .error (.versionNotFound nv)
    else
      match s.items.find? (fun e => e.version = nv) with
      | none => .error (.versionNotFound nv)
      | some e => .ok { s with activeMem := some e.version }

/-- First phase of `Migrate.setActiveVersion`: resolve the target and
update the collection's active marker; errors are thrown before the
external setter is reached. -/
def resolveSet (s : MState) (t : SetTarget) : Except MErr MState :=
  match t with
  | .unset => .ok { s with activeMem := none }
  | .inst e => resolveSetVersion s (some e.version)
  | .latest => resolveSetVersion s (available s).getLast?
  | .initial => resolveSetVersion s (available s).head?
  | .explicit l =>
    match normalizeSemver l true with
    | none => .error (.invalidVersion l)
    | some nv => resolveSetVersion s (some nv)

/-- Embedding of `Migrate.setActiveVersion`: resolve and update the marker,
then invoke the external setter with the marker's value; a setter throw
(`storeFailed`) leaves the store unchanged while the marker keeps its new
value. -/
def setActiveVersion (env : Env) (s : MState) (t : SetTarget) :
    Except MErr (Option String) × List Event × MState :=
  match resolveSet s t with
  | .error e => (.error e, [], s)
  | .ok s1 =>
    let active := s1.activeMem
    if env.setFails active then (.error .storeFailed, [.extSet active], s1)
    else (.ok active, [.extSet active], { s1 with stored := active })

/-- The metadata record produced by `Migrate.__upMeta`. -/
structure UpMeta where
  fromVersion : String
  fromIndex : Int
  toVersion : Option String
  toIndex : Int
  isInitial : Bool
deriving DecidableEq, Repr

/-- Resolution of the `from` position shared by `__upMeta` and `__downMeta`:
a truthy label is looked up with assertion, a falsy one (absent label or
empty string) falls back to the lowest-sorted version. -/
def resolveFrom (s : MState) (fl : Option String) : Except MErr (Option Entry) :=
  match fl with
  | some l => if l ≠ ("") then findVersion s l true else .ok (atIdx s.items 0)
  | none => .ok (atIdx s.items 0)

/-- Resolution of the `to` version in `__upMeta`, by target mode. -/
def upMetaTo (s : MState) (target : String) (fr : Entry) : Except MErr (Option String) :=
  if target = ("latest") then .ok ((atIdx s.items (-1)).map (fun e => e.version))
  else if target = ("major") then
    let nextMajor := (s.items.filter (fun v => v.major > fr.major)).head?
    let tv : Option String :=
      match nextMajor with
      | some nm =>
        ((s.items.filter (fun v => v.major = nm.major)).map (fun v => v.version)).getLast?
      | none => none
    .ok (some (tv.getD fr.version))
  else if target = ("minor") then
    .ok (some ((((s.items.filter (fun v => v.major = fr.major ∧ v.minor > fr.minor)).map
      (fun v => v.version)).getLast?).getD fr.version))
  else if target = ("patch") then
    .ok (some ((((s.items.filter (fun v =>
      v.major = fr.major ∧ v.minor = fr.minor ∧ v.patch > fr.patch)).map
      (fun v => v.version)).getLast?).getD fr.version))
  else
    match findVersion s target false with
    | .error e => .error e
    | .ok e? => .ok (e?.map (fun e => e.version))

/-- The index computations closing `__upMeta`. -/
def upMetaIdx (s : MState) (fr : Entry) (toVersion : Option String) (isInitial : Bool) :
    Except MErr (Option UpMeta) :=
  match indexOf s fr.version with
  | .error e => .error e
  | .ok fromIndex =>
    match (match toVersion with
           | some tv => if tv ≠ ("") then indexOf s tv else .ok (-1)
           | none => (.ok (-1) : Except MErr Int)) with
    | .error e => .error e
    | .ok toIndex => .ok (some ⟨fr.version, fromIndex, toVersion, toIndex, isInitial⟩)

/-- Embedding of `Migrate.__upMeta(target, fromVersionLabel)`:
`ok none` is the `undefined` result on an empty collection. -/
def upMeta (s : MState) (target : String) (fromLabel : Option String) :
    Except MErr (Option UpMeta) :=
  if s.items = [] then .ok none
  else
    match (match fromLabel with
           | some l => (.ok (some l) : Except MErr (Option String))
           | none => getActiveVersion s) with
    | .error e => .error e
    | .ok fl =>
      let isInitial := fl = none
      match resolveFrom s fl with
      | .error e => .error e
      | .ok none => .error (.versionNotFound ((fl).getD ("")))
      | .ok (some fr) =>
        match upMetaTo s target fr with
        | .error e => .error e
        | .ok toVersion => upMetaIdx s fr toVersion isInitial

/-- The body of the `up` migration loop over the planned collection
indices: invoke the version's `up` action, then persist the new active
version; abort on the first failure, wrapping the cause. -/
def runUpSteps (env : Env) (items : List Entry) :
    List Nat → MState → Nat → List Event → Except MErr Nat × List Event × MState
  | [], s, cnt, tr => (.ok cnt, tr, s)
  | i :: rest, s, cnt, tr =>
    match items.get? i with
    | none => (.error (.versionNotFound ("")), tr, s)
    | some v =>
      if env.upFails v.version then
        (.error (.upgradeFailed v.version), tr ++ [.upAct v.version], s)
      else
        match setActiveVersion env s (.inst v) with
        | (.error _, ev, s1) =>
          (.error (.persistenceFailed (some v.version)), tr ++ .upAct v.version :: ev, s1)
        | (.ok _, ev, s1) =>
          runUpSteps env items rest s1 (cnt + 1) (tr ++ .upAct v.version :: ev)

/-- Embedding of `Migrate.up(target)`: read the active version, plan via
`__upMeta`, no-op when already at or above the target (unless this is the
initial install), otherwise run the steps from `fromIndex` (exclusive when
not initial) up to `toIndex` inclusive. -/
def up (env : Env) (s : MState) (target : String) :
    Except MErr Nat × List Event × MState :=
  match getActiveVersion s with
  | .error e => (.error e, [], s)
  | .ok activeVersion =>
    match upMeta s target activeVersion with
    | .error e => (.error e, [], s)
    | .ok none => (.error (.targetNotFound target), [], s)
    | .ok (some meta) =>
      if meta.fromIndex = -1 ∨ meta.toIndex = -1 then
        (.error (.targetNotFound target), [], s)
      else if meta.fromIndex ≥ meta.toIndex ∧ ¬meta.isInitial then (.ok 0, [], s)
      else
        let idxs := List.range' meta.fromIndex.toNat (meta.toIndex.toNat + 1 - meta.fromIndex.toNat)
        let steps := if meta.isInitial then idxs else idxs.drop 1
        runUpSteps env s.items steps s 0 []

/-- The metadata record produced by `Migrate.__downMeta`. -/
structure DownMeta where
  fromVersion : String
  fromIndex : Int
  toVersion : Option String
  toIndex : Int
deriving DecidableEq, Repr

/-- Resolution of the `to` version in `__downMeta`, by target mode. -/
def downMetaTo (s : MState) (target : String) (fr : Entry) : Except MErr (Option String) :=
  if target = ("initial") then .ok ((atIdx s.items 0).map (fun e => e.version))
  else if target = ("major") then
    .ok (some ((((s.items.filter (fun v => v.major < fr.major)).map
      (fun v => v.version)).getLast?).getD fr.version))
  else if target = ("minor") then
    .ok (some ((((s.items.filter (fun v => v.major = fr.major ∧ v.minor < fr.minor)).map
      (fun v => v.version)).getLast?).getD fr.version))
  else if target = ("patch") then
    .ok (some ((((s.items.filter (fun v =>
      v.major = fr.major ∧ v.minor = fr.minor ∧ v.patch < fr.patch)).map
      (fun v => v.version)).getLast?).getD fr.version))
  else
    match findVersion s target false with
    | .error e => .error e
    | .ok e? => .ok (e?.map (fun e => e.version))

/-- The index computations closing `__downMeta`. -/
def downMetaIdx (s : MState) (fr : Entry) (toVersion : Option String) :
    Except MErr (Option DownMeta) :=
  match indexOf s fr.version with
  | .error e => .error e
  | .ok fromIndex =>
    match (match toVersion with
           | some tv => if tv ≠ ("") then indexOf s tv else .ok (-1)
           | none => (.ok (-1) : Except MErr Int)) with
    | .error e => .error e
    | .ok toIndex => .ok (some ⟨fr.version, fromIndex, toVersion, toIndex⟩)

/-- Embedding of `Migrate.__downMeta(target, fromVersionLabel)`. -/
def downMeta (s : MState) (target : String) (fromLabel : Option String) :
    Except MErr (Option DownMeta) :=
  if s.items = [] then .ok none
  else
    match (match fromLabel with
           | some l => (.ok (some l) : Except MErr (Option String))
           | none => getActiveVersion s) with
    | .error e => .error e
    | .ok fl =>
      match fl with
      | none => .error .noActiveVersion
      | some l =>
        if l = ("") then .error .noActiveVersion
        else
          match findVersion s l true with
          | .error e => .error e
          | .ok none => .error (.versionNotFound l)
          | .ok (some fr) =>
            match downMetaTo s target fr with
            | .error e => .error e
            | .ok toVersion => downMetaIdx s fr toVersion

/-- The body of the `down` migration loop: at index `i`, invoke the `down`
action of the version at `i`, then persist the version at `i - 1` as the
new active version. -/
def runDownSteps (env : Env) (items : List Entry) :
    List Nat → MState → Nat → List Event → Except MErr Nat × List Event × MState
  | [], s, cnt, tr => (.ok cnt, tr, s)
  | i :: rest, s, cnt, tr =>
    match items.get? i with
    | none => (.error (.versionNotFound ("")), tr, s)
    | some v =>
      let tgt := atIdx items ((i : Int) - 1)
      if env.downFails v.version then
        (.error (.downgradeFailed v.version), tr ++ [.downAct v.version], s)
      else
        let st : SetTarget :=
          match tgt with
          | some t => .explicit t.version
          | none => .unset
        match setActiveVersion env s st with
        | (.error _, ev, s1) =>
          (.error (.persistenceFailed (tgt.map (fun t => t.version))),
            tr ++ .downAct v.version :: ev, s1)
        | (.ok _, ev, s1) =>
          runDownSteps env items rest s1 (cnt + 1) (tr ++ .downAct v.version :: ev)

/-- Embedding of `Migrate.down(target)`: requires an active version, plans
via `__downMeta`, no-ops when already at or below the target, otherwise
steps from `fromIndex` down to `toIndex` exclusive. -/
def down (env : Env) (s : MState) (target : String) :
    Except MErr Nat × List Event × MState :=
  match getActiveVersion s with
  | .error e => (.error e, [], s)
  | .ok activeVersion =>
    if activeVersion = none ∨ activeVersion = some ("") then
      (.error .noActiveVersion, [], s)
    else
      match downMeta s target activeVersion with
      | .error e => (.error e, [], s)
      | .ok none => (.error (.targetNotFound target), [], s)
      | .ok (some meta) =>
        if meta.fromIndex = -1 ∨ meta.toIndex = -1 then
          (.error (.targetNotFound target), [], s)
        else if meta.fromIndex ≤ meta.toIndex then (.ok 0, [], s)
        else
          let idxs := (List.range' (meta.toIndex.toNat + 1)
            (meta.fromIndex.toNat - meta.toIndex.toNat)).reverse
          runDownSteps env s.items idxs s 0 []

/-- Embedding of `Migrate.uninstall()`: no-op when no active version;
otherwise `down("initial")`, then the lowest version's own `down` action as
one extra step, then clear the active marker. -/
def uninstall (env : Env) (s : MState) : Except MErr Nat × List Event × MState :=
  match getActiveVersion s with
  | .error e => (.error e, [], s)
  | .ok none => (.ok 0, [], s)
  | .ok (some _) =>
    match down env s ("initial") with
    | (.error e, tr, s1) => (.error e, tr, s1)
    | (.ok n, tr, s1) =>
      match s1.items.get? 0 with
      | none => (.error .uninstallFailed, tr, s1)
      | some v0 =>
        if env.downFails v0.version then
          (.error .uninstallFailed, tr ++ [.downAct v0.version], s1)
        else
          match setActiveVersion env s1 .unset with
          | (.error _, ev, s2) =>
            (.error (.persistenceFailed none), tr ++ .downAct v0.version :: ev, s2)
          | (.ok _, ev, s2) => (.ok (n + 1), tr ++ .downAct v0.version :: ev, s2)

/-! ## Engine invariants -/

/-- A constructed entry: its version string is a fixed point of
normalization, and parses back to exactly its stored segments. -/
def EntryWF (e : Entry) : Prop :=
  normalizeSemver e.version true = some e.version ∧
  parseSemver e.version = some ⟨e.major, e.minor, e.patch, e.prerelease, e.build⟩

/-- Engine-state invariant: every entry is well-formed, and the collection
is strictly sorted by the semver comparator. -/
def StateWF (s : MState) : Prop :=
  (∀ e ∈ s.items, EntryWF e) ∧ s.items.Pairwise (fun x y => cmpEntry x y < 0)

/-- The parsed-components record of a well-formed entry. -/
def entryParsed (e : Entry) : Parsed := ⟨e.major, e.minor, e.patch, e.prerelease, e.build⟩

theorem cmpEntry_eq_svCmp (x y : Entry) (hx : EntryWF x) (hy : EntryWF y) :
    cmpEntry x y = svCmp (x.version, entryParsed x) (y.version, entryParsed y) := by
  unfold cmpEntry
  rw [compareSemver_eq_svCmp hx.2 hy.2]
  rfl

theorem compareSemver_entries (x y : Entry) (hx : EntryWF x) (hy : EntryWF y) :
    compareSemver x.version y.version = some (cmpEntry x y) := by
  rw [compareSemver_eq_svCmp hx.2 hy.2, cmpEntry_eq_svCmp x y hx hy]
  rfl

theorem cmpEntry_antisym (x y : Entry) (hx : EntryWF x) (hy : EntryWF y) :
    cmpEntry x y = -(cmpEntry y x) := by
  rw [cmpEntry_eq_svCmp x y hx hy, cmpEntry_eq_svCmp y x hy hx]
  exact goodSvCmp.antisym _ _

theorem cmpEntry_trans_lt (x y z : Entry) (hx : EntryWF x) (hy : EntryWF y) (hz : EntryWF z)
    (h1 : cmpEntry x y < 0) (h2 : cmpEntry y z < 0) : cmpEntry x z < 0 := by
  rw [cmpEntry_eq_svCmp x y hx hy] at h1
  rw [cmpEntry_eq_svCmp y z hy hz] at h2
  rw [cmpEntry_eq_svCmp x z hx hz]
  exact goodSvCmp.trans_lt _ _ _ h1 h2

theorem cmpEntry_zero_version (x y : Entry) (hx : EntryWF x) (hy : EntryWF y)
    (h : cmpEntry x y = 0) : x.version = y.version := by
  refine compareSemver_eq_zero hx.2 hy.2 ?_
  rw [compareSemver_entries x y hx hy, h]

theorem cmpEntry_lt_ne_version (x y : Entry) (h : cmpEntry x y < 0) :
    x.version ≠ y.version := by
  intro hc
  unfold cmpEntry at h
  rw [hc] at h
  rcases hp : parseSemver y.version with - | v
  · rw [show compareSemver y.version y.version = none by
      unfold compareSemver; rw [hp]] at h
    simp at h
  · rw [compareSemver_eq_svCmp hp hp, goodSvCmp.refl_zero (y.version, v)] at h
    simp at h

theorem mkEntry_WF (label : String) (e : Entry) (h : mkEntry label = some e) : EntryWF e := by
  simp only [mkEntry] at h
  by_cases hl : label = ("")
  · simp [hl] at h
  · rw [if_neg hl] at h
    rcases hn : normalizeSemver label true with - | nv
    · rw [hn] at h; simp at h
    · rw [hn] at h
      have h2 : (match parseSemver nv with
        | none => none
        | some p =>
          some (⟨nv, p.major, p.minor, p.patch, p.prerelease, p.build⟩ : Entry)) = some e := h
      rcases hp : parseSemver nv with - | p
      · rw [hp] at h2; simp at h2
      · rw [hp] at h2
        simp only [Option.some.injEq] at h2
        rw [← h2]
        constructor
        · exact (normalizeSemver_idem label nv hn).1
        · rw [hp]

theorem entry_version_ne_empty (e : Entry) (he : EntryWF e) : e.version ≠ ("") := by
  intro hc
  have := he.1
  rw [hc] at this
  simp [normalizeSemver, stripV, fullMatch, munchDigits, alternateMatch] at this

theorem mem_insertSorted (e x : Entry) (l : List Entry) :
    x ∈ insertSorted e l ↔ x = e ∨ x ∈ l := by
  induction l with
  | nil => simp [insertSorted]
  | cons y ys ih =>
    simp only [insertSorted]
    by_cases hc : cmpEntry e y < 0
    · rw [if_pos hc]
      exact List.mem_cons
    · rw [if_neg hc]
      simp only [List.mem_cons, ih]
      tauto

theorem insertSorted_pairwise (e : Entry) (l : List Entry) (hWFe : EntryWF e)
    (hWFl : ∀ x ∈ l, EntryWF x) (hs : l.Pairwise (fun x y => cmpEntry x y < 0))
    (hne : ∀ x ∈ l, x.version ≠ e.version) :
    (insertSorted e l).Pairwise (fun x y => cmpEntry x y < 0) := by
  induction l with
  | nil => simp [insertSorted]
  | cons y ys ih =>
    simp only [insertSorted]
    rcases List.pairwise_cons.mp hs with ⟨hy, hys⟩
    by_cases hc : cmpEntry e y < 0
    · rw [if_pos hc]
      refine List.pairwise_cons.mpr ⟨?_, hs⟩
      intro b hb
      rcases List.mem_cons.mp hb with rfl | hb2
      · exact hc
      · exact cmpEntry_trans_lt e y b hWFe (hWFl y (List.mem_cons_self y ys))
          (hWFl b (List.mem_cons_of_mem y hb2)) hc (hy b hb2)
    · rw [if_neg hc]
      refine List.pairwise_cons.mpr ⟨?_, ?_⟩
      · intro b hb
        rcases (mem_insertSorted e b ys).mp hb with rfl | hb2
        · have hWFy := hWFl y (List.mem_cons_self y ys)
          have h0 : cmpEntry y b ≠ 0 := by
            intro h0
            exact hne y (List.mem_cons_self y ys) (cmpEntry_zero_version y b hWFy hWFe h0)
          have := cmpEntry_antisym b y hWFe hWFy
          omega
        · exact hy b hb2
      · exact ih (fun x hx => hWFl x (List.mem_cons_of_mem y hx)) hys
          (fun x hx => hne x (List.mem_cons_of_mem y hx))

theorem addVersion_ok (s : MState) (label : String) (s2 : MState)
    (h : addVersion s label = .ok s2) (hWF : StateWF s) :
    StateWF s2 ∧ s2.activeMem = s.activeMem ∧ s2.stored = s.stored ∧
    ∃ e, mkEntry label = some e ∧ s2.items = insertSorted e s.items := by
  simp only [addVersion] at h
  rcases hm : mkEntry label with - | e
  · rw [hm] at h; simp at h
  · rw [hm] at h
    have h2 : (if (s.items.any fun x => x.version = e.version) = true then
        Except.error (MErr.duplicateVersion label)
      else Except.ok { s with items := insertSorted e s.items }) = Except.ok s2 := h
    clear h
    by_cases hdup : (s.items.any fun x => x.version = e.version) = true
    · rw [if_pos hdup] at h2; simp at h2
    · rw [if_neg hdup] at h2
      simp only [Except.ok.injEq] at h2
      have h := h2
      have hWFe := mkEntry_WF label e hm
      have hne : ∀ x ∈ s.items, x.version ≠ e.version := by
        intro x hx hc
        exact hdup (List.any_eq_true.mpr ⟨x, hx, by simp [hc]⟩)
      refine ⟨⟨?_, ?_⟩, ?_, ?_, e, rfl, ?_⟩
      · intro x hx
        rw [← h] at hx
        rcases (mem_insertSorted e x s.items).mp hx with rfl | hx2
        · exact hWFe
        · exact hWF.1 x hx2
      · rw [← h]
        exact insertSorted_pairwise e s.items hWFe hWF.1 hWF.2 hne
      · rw [← h]
      · rw [← h]
      · rw [← h]

theorem addVersions_ok (labels : List String) (s s2 : MState)
    (h : addVersions s labels = .ok s2) (hWF : StateWF s) :
    StateWF s2 ∧ s2.activeMem = s.activeMem ∧ s2.stored = s.stored := by
  induction labels generalizing s with
  | nil =>
    simp only [addVersions, Except.ok.injEq] at h
    rw [← h]
    exact ⟨hWF, rfl, rfl⟩
  | cons l ls ih =>
    simp only [addVersions] at h
    rcases ha : addVersion s l with e | s1
    · rw [ha] at h; simp at h
    · rw [ha] at h
      obtain ⟨hWF1, hact, hst, -⟩ := addVersion_ok s l s1 ha hWF
      obtain ⟨hWF2, hact2, hst2⟩ := ih s1 h hWF1
      exact ⟨hWF2, by rw [hact2, hact], by rw [hst2, hst]⟩

theorem initState_WF : StateWF initState := by
  constructor
  · intro e he
    simp [initState] at he
  · simp [initState]

/-- The strictly-ascending relation `compareSemver` induces on version
strings. -/
def SemverLt (a b : String) : Prop := ∃ c, compareSemver a b = some c ∧ c < 0

theorem available_sorted (s : MState) (hWF : StateWF s) :
    (available s).Pairwise SemverLt := by
  unfold available
  rw [List.pairwise_map]
  refine hWF.2.imp_of_mem ?_
  intro x y hx hy hlt
  exact ⟨cmpEntry x y, compareSemver_entries x y (hWF.1 x hx) (hWF.1 y hy), hlt⟩

theorem semverLt_ne (a b : String) (h : SemverLt a b) : a ≠ b := by
  obtain ⟨c, hc, hlt⟩ := h
  intro hab
  subst hab
  rcases hp : parseSemver a with - | v
  · unfold compareSemver at hc
    rw [hp] at hc
    simp at hc
  · rw [compareSemver_eq_svCmp hp hp, goodSvCmp.refl_zero (a, v)] at hc
    simp at hc
    omega

theorem available_nodup (s : MState) (hWF : StateWF s) : (available s).Nodup := by
  exact List.Pairwise.imp (fun h => semverLt_ne _ _ h) (available_sorted s hWF)

/-! ## Position and marker lemmas -/

theorem findIdx?_nodup_aux (l : List Entry) (e : Entry) (n k : Nat)
    (hnd : (l.map (fun x => x.version)).Nodup) (hget : l.get? n = some e) :
    List.findIdx? (fun x => x.version = e.version) l k = some (k + n) := by
  induction l generalizing n k with
  | nil => simp at hget
  | cons y ys ih =>
    cases n with
    | zero =>
      simp only [List.get?] at hget
      rw [List.findIdx?_cons]
      simp only [Option.some.injEq] at hget
      rw [hget]
      simp
    | succ m =>
      simp only [List.get?] at hget
      rw [List.findIdx?_cons]
      have hne : ¬(y.version = e.version) := by
        intro hc
        have hmem : e.version ∈ ys.map (fun x => x.version) :=
          List.mem_map.mpr ⟨e, List.get?_mem hget, rfl⟩
        rw [← hc] at hmem
        exact (List.nodup_cons.mp hnd).1 hmem
      rw [if_neg (by simp [hne])]
      rw [ih m (k + 1) (List.nodup_cons.mp hnd).2 hget]
      congr 1
      omega

theorem indexOf_get (s : MState) (hWF : StateWF s) (n : Nat) (e : Entry)
    (hget : s.items.get? n = some e) : indexOf s e.version = .ok (n : Int) := by
  have hWFe := hWF.1 e (List.get?_mem hget)
  unfold indexOf
  rw [hWFe.1]
  show (match List.findIdx? (fun x => x.version = e.version) s.items with
    | some i => Except.ok (i : Int)
    | none => Except.ok (-1)) = Except.ok (n : Int)
  rw [findIdx?_nodup_aux s.items e n 0 (available_nodup s hWF) hget]
  simp

theorem find?_version (l : List Entry) (hnd : (l.map (fun x => x.version)).Nodup)
    (e : Entry) (he : e ∈ l) : l.find? (fun x => x.version = e.version) = some e := by
  induction l with
  | nil => simp at he
  | cons y ys ih =>
    rcases List.mem_cons.mp he with rfl | he2
    · rw [List.find?_cons]
      simp
    · have hne : ¬(y.version = e.version) := by
        intro hc
        have hmem : e.version ∈ ys.map (fun x => x.version) :=
          List.mem_map.mpr ⟨e, he2, rfl⟩
        rw [← hc] at hmem
        exact (List.nodup_cons.mp hnd).1 hmem
      rw [List.find?_cons]
      have hd : decide (y.version = e.version) = false := by simp [hne]
      rw [hd]
      exact ih (List.nodup_cons.mp hnd).2 he2

theorem resolveSet_inst (s : MState) (e : Entry) (hWF : StateWF s) (he : e ∈ s.items) :
    resolveSet s (.inst e) = .ok { s with activeMem := some e.version } := by
  have hWFe := hWF.1 e he
  simp only [resolveSet, resolveSetVersion]
  rw [if_neg (entry_version_ne_empty e hWFe),
    find?_version s.items (available_nodup s hWF) e he]

theorem resolveSet_explicit (s : MState) (e : Entry) (hWF : StateWF s) (he : e ∈ s.items) :
    resolveSet s (.explicit e.version) = .ok { s with activeMem := some e.version } := by
  have hWFe := hWF.1 e he
  simp only [resolveSet]
  rw [hWFe.1]
  simp only [resolveSetVersion]
  rw [if_neg (entry_version_ne_empty e hWFe),
    find?_version s.items (available_nodup s hWF) e he]

theorem setActiveVersion_inst_ok (env : Env) (s : MState) (e : Entry)
    (hWF : StateWF s) (he : e ∈ s.items) (hsf : env.setFails (some e.version) = false) :
    setActiveVersion env s (.inst e) =
      (.ok (some e.version), [.extSet (some e.version)],
        { s with activeMem := some e.version, stored := some e.version }) := by
  unfold setActiveVersion
  rw [resolveSet_inst s e hWF he]
  simp [hsf]

theorem setActiveVersion_inst_fail (env : Env) (s : MState) (e : Entry)
    (hWF : StateWF s) (he : e ∈ s.items) (hsf : env.setFails (some e.version) = true) :
    setActiveVersion env s (.inst e) =
      (.error .storeFailed, [.extSet (some e.version)],
        { s with activeMem := some e.version }) := by
  unfold setActiveVersion
  rw [resolveSet_inst s e hWF he]
  simp [hsf]

theorem setActiveVersion_explicit_ok (env : Env) (s : MState) (e : Entry)
    (hWF : StateWF s) (he : e ∈ s.items) (hsf : env.setFails (some e.version) = false) :
    setActiveVersion env s (.explicit e.version) =
      (.ok (some e.version), [.extSet (some e.version)],
        { s with activeMem := some e.version, stored := some e.version }) := by
  unfold setActiveVersion
  rw [resolveSet_explicit s e hWF he]
  simp [hsf]

theorem setActiveVersion_unset_ok (env : Env) (s : MState) (hsf : env.setFails none = false) :
    setActiveVersion env s .unset =
      (.ok none, [.extSet none], { s with activeMem := none, stored := none }) := by
  unfold setActiveVersion
  show (match (Except.ok { s with activeMem := none } : Except MErr MState) with
    | .error e => (Except.error e, [], s)
    | .ok s1 => _) = _
  simp [hsf]

/-! ## The migration step loops -/

/-- The events of a run of successful up steps. -/
def upStepEvents (vs : List String) : List Event :=
  vs.flatMap (fun v => [.upAct v, .extSet (some v)])

/-- The engine state after persisting each version of the list in turn. -/
def afterSteps (s : MState) (vs : List String) : MState :=
  match vs.getLast? with
  | none => s
  | some v => { s with activeMem := some v, stored := some v }

/-- The version strings sitting at the given collection indices. -/
def versionsAt (items : List Entry) (idxs : List Nat) : List String :=
  idxs.filterMap (fun i => (items.get? i).map (fun e => e.version))

theorem afterSteps_cons (s : MState) (v : String) (vs : List String) :
    afterSteps s (v :: vs) =
      afterSteps { s with activeMem := some v, stored := some v } vs := by
  cases vs with
  | nil => rfl
  | cons w ws =>
    simp only [afterSteps, List.getLast?_cons_cons]
    rcases h : (w :: ws).getLast? with - | u
    · rw [List.getLast?_eq_none_iff] at h
      exact absurd h (by simp)
    · rfl

theorem afterSteps_items (s : MState) (vs : List String) : (afterSteps s vs).items = s.items := by
  unfold afterSteps
  rcases vs.getLast? with - | u <;> rfl

theorem runUpSteps_allOk (env : Env) (items : List Entry) (idxs : List Nat)
    (s : MState) (cnt : Nat) (tr : List Event)
    (hits : s.items = items)
    (hWF : ∀ e ∈ items, EntryWF e)
    (hsorted : items.Pairwise (fun x y => cmpEntry x y < 0))
    (hok : ∀ i ∈ idxs, ∃ e, items.get? i = some e ∧ env.upFails e.version = false ∧
      env.setFails (some e.version) = false) :
    runUpSteps env items idxs s cnt tr =
      (.ok (cnt + idxs.length), tr ++ upStepEvents (versionsAt items idxs),
        afterSteps s (versionsAt items idxs)) := by
  induction idxs generalizing s cnt tr with
  | nil => simp [runUpSteps, versionsAt, upStepEvents, afterSteps]
  | cons i rest ih =>
    obtain ⟨e, hget, hup, hsf⟩ := hok i (List.mem_cons_self i rest)
    have hWFs : StateWF s := ⟨by rw [hits]; exact hWF, by rw [hits]; exact hsorted⟩
    have hmem : e ∈ s.items := by rw [hits]; exact List.get?_mem hget
    simp only [runUpSteps, hget, hup, Bool.false_eq_true, if_false]
    rw [setActiveVersion_inst_ok env s e hWFs hmem hsf]
    show runUpSteps env items rest
      { s with activeMem := some e.version, stored := some e.version } (cnt + 1)
      (tr ++ [Event.upAct e.version, Event.extSet (some e.version)]) = _
    rw [ih { s with activeMem := some e.version, stored := some e.version } (cnt + 1)
      (tr ++ [Event.upAct e.version, Event.extSet (some e.version)]) hits
      (fun j hj => hok j (List.mem_cons_of_mem i hj))]
    have hv : versionsAt items (i :: rest) = e.version :: versionsAt items rest := by
      have hget2 : items[i]? = some e := by
        rw [← List.get?_eq_getElem?]
        exact hget
      simp [versionsAt, hget2]
    have hlen : cnt + (i :: rest).length = cnt + 1 + rest.length := by
      simp only [List.length_cons]
      omega
    have hev : tr ++ upStepEvents (e.version :: versionsAt items rest) =
        (tr ++ [Event.upAct e.version, Event.extSet (some e.version)]) ++
          upStepEvents (versionsAt items rest) := by
      simp [upStepEvents]
    rw [hv, hlen, hev, afterSteps_cons]

theorem runUpSteps_append (env : Env) (items : List Entry) (l1 l2 : List Nat)
    (s : MState) (cnt : Nat) (tr : List Event) :
    runUpSteps env items (l1 ++ l2) s cnt tr =
      (match runUpSteps env items l1 s cnt tr with
       | (.ok c1, tr1, s1) => runUpSteps env items l2 s1 c1 tr1
       | r => r) := by
  induction l1 generalizing s cnt tr with
  | nil => simp [runUpSteps]
  | cons i rest ih =>
    simp only [List.cons_append, runUpSteps]
    rcases hg : items.get? i with - | e
    · simp only [hg]
    · simp only [hg]
      cases hf : env.upFails e.version with
      | true => simp [hf]
      | false =>
        simp only [hf, Bool.false_eq_true, if_false]
        rcases hs : setActiveVersion env s (.inst e) with ⟨r, ev, s1⟩
        cases r with
        | error err => rfl
        | ok va => exact ih s1 (cnt + 1) (tr ++ Event.upAct e.version :: ev)

theorem atIdx_nat (l : List Entry) (n : Nat) : atIdx l (n : Int) = l.get? n := by
  unfold atIdx
  rw [if_neg (by omega)]
  simp

theorem atIdx_neg_one (l : List Entry) (h : l ≠ []) :
    atIdx l (-1) = l.get? (l.length - 1) := by
  unfold atIdx
  rw [if_pos (by omega)]
  have hlen : 0 < l.length := List.length_pos.mpr h
  rw [if_neg (by omega)]
  congr 1
  omega

theorem atIdx_sub_one (l : List Entry) (i : Nat) (h : 1 ≤ i) :
    atIdx l ((i : Int) - 1) = l.get? (i - 1) := by
  unfold atIdx
  rw [if_neg (by omega)]
  congr 1
  omega

theorem getActiveVersion_none (s : MState) (h : s.stored = none) :
    getActiveVersion s = .ok none := by
  simp [getActiveVersion, h]

theorem getActiveVersion_entry (s : MState) (e : Entry) (hWFe : EntryWF e)
    (h : s.stored = some e.version) : getActiveVersion s = .ok (some e.version) := by
  simp only [getActiveVersion, h]
  rw [if_pos (by simp [entry_version_ne_empty e hWFe]), hWFe.1]

theorem getActiveVersion_empty (s : MState) (h : s.stored = some ("")) :
    getActiveVersion s = .ok (some ("")) := by
  simp [getActiveVersion, h]

theorem findVersion_entry (s : MState) (hWF : StateWF s) (k : Nat) (fr : Entry)
    (hk : s.items.get? k = some fr) (b : Bool) :
    findVersion s fr.version b = .ok (some fr) := by
  unfold findVersion
  simp only [indexOf_get s hWF k fr hk]
  rw [if_pos (by omega : ((k : Int) > -1)), atIdx_nat, hk]

theorem resolveFrom_falsy (s : MState) (fl : Option String)
    (hfl : fl = none ∨ fl = some ("")) : resolveFrom s fl = .ok (atIdx s.items 0) := by
  rcases hfl with rfl | rfl
  · rfl
  · simp [resolveFrom]

theorem resolveFrom_entry (s : MState) (hWF : StateWF s) (k : Nat) (fr : Entry)
    (hk : s.items.get? k = some fr) :
    resolveFrom s (some fr.version) = .ok (some fr) := by
  have hWFr := hWF.1 fr (List.get?_mem hk)
  simp only [resolveFrom]
  rw [if_pos (by simp [entry_version_ne_empty fr hWFr])]
  exact findVersion_entry s hWF k fr hk true

theorem runUpSteps_action_fail (env : Env) (items : List Entry) (i : Nat)
    (post : List Nat) (s : MState) (cnt : Nat) (tr : List Event) (e : Entry)
    (hget : items.get? i = some e) (hfail : env.upFails e.version = true) :
    runUpSteps env items (i :: post) s cnt tr =
      (.error (.upgradeFailed e.version), tr ++ [.upAct e.version], s) := by
  simp only [runUpSteps, hget, hfail, if_true]

theorem runUpSteps_persist_fail (env : Env) (items : List Entry) (i : Nat)
    (post : List Nat) (s : MState) (cnt : Nat) (tr : List Event) (e : Entry)
    (hits : s.items = items) (hWF : StateWF s)
    (hget : items.get? i = some e)
    (hup : env.upFails e.version = false) (hfail : env.setFails (some e.version) = true) :
    runUpSteps env items (i :: post) s cnt tr =
      (.error (.persistenceFailed (some e.version)),
        tr ++ [.upAct e.version, .extSet (some e.version)],
        { s with activeMem := some e.version }) := by
  simp only [runUpSteps, hget, hup, Bool.false_eq_true, if_false]
  rw [setActiveVersion_inst_fail env s e hWF (by rw [hits]; exact List.get?_mem hget) hfail]

/-- The (executed version, persisted target version) pairs of a run of
down steps over the given indices. -/
def downPairs (items : List Entry) (idxs : List Nat) : List (String × String) :=
  idxs.filterMap (fun i =>
    match items.get? i, items.get? (i - 1) with
    | some e, some t => some (e.version, t.version)
    | _, _ => none)

/-- The events of a run of successful down steps. -/
def downStepEvents (ps : List (String × String)) : List Event :=
  ps.flatMap (fun p => [.downAct p.1, .extSet (some p.2)])

theorem runDownSteps_allOk (env : Env) (items : List Entry) (idxs : List Nat)
    (s : MState) (cnt : Nat) (tr : List Event)
    (hits : s.items = items)
    (hWF : ∀ e ∈ items, EntryWF e)
    (hsorted : items.Pairwise (fun x y => cmpEntry x y < 0))
    (hok : ∀ i ∈ idxs, 1 ≤ i ∧ ∃ e t, items.get? i = some e ∧ items.get? (i - 1) = some t ∧
      env.downFails e.version = false ∧ env.setFails (some t.version) = false) :
    runDownSteps env items idxs s cnt tr =
      (.ok (cnt + idxs.length), tr ++ downStepEvents (downPairs items idxs),
        afterSteps s ((downPairs items idxs).map Prod.snd)) := by
  induction idxs generalizing s cnt tr with
  | nil => simp [runDownSteps, downPairs, downStepEvents, afterSteps]
  | cons i rest ih =>
    obtain ⟨hi1, e, t, hget, htgt, hdn, hsf⟩ := hok i (List.mem_cons_self i rest)
    have hWFs : StateWF s := ⟨by rw [hits]; exact hWF, by rw [hits]; exact hsorted⟩
    have hmemt : t ∈ s.items := by rw [hits]; exact List.get?_mem htgt
    simp only [runDownSteps, hget, hdn, Bool.false_eq_true, if_false,
      atIdx_sub_one items i hi1, htgt]
    rw [setActiveVersion_explicit_ok env s t hWFs hmemt hsf]
    show runDownSteps env items rest
      { s with activeMem := some t.version, stored := some t.version } (cnt + 1)
      (tr ++ [Event.downAct e.version, Event.extSet (some t.version)]) = _
    rw [ih { s with activeMem := some t.version, stored := some t.version } (cnt + 1)
      (tr ++ [Event.downAct e.version, Event.extSet (some t.version)]) hits
      (fun j hj => hok j (List.mem_cons_of_mem i hj))]
    have hp : downPairs items (i :: rest) = (e.version, t.version) :: downPairs items rest := by
      have hget2 : items[i]? = some e := by rw [← List.get?_eq_getElem?]; exact hget
      have htgt2 : items[i - 1]? = some t := by rw [← List.get?_eq_getElem?]; exact htgt
      simp [downPairs, hget2, htgt2]
    have hlen : cnt + (i :: rest).length = cnt + 1 + rest.length := by
      simp only [List.length_cons]
      omega
    have hev : tr ++ downStepEvents ((e.version, t.version) :: downPairs items rest) =
        (tr ++ [Event.downAct e.version, Event.extSet (some t.version)]) ++
          downStepEvents (downPairs items rest) := by
      simp [downStepEvents]
    rw [hp, hlen, hev]
    show _ = (_, _, afterSteps s (t.version :: (downPairs items rest).map Prod.snd))
    rw [afterSteps_cons]

/-- The version strings at a contiguous index range are the corresponding
slice of the collection. -/
theorem versionsAt_range (items : List Entry) (j n : Nat) (hjn : j + n ≤ items.length) :
    versionsAt items (List.range' j n) =
      ((items.drop j).take n).map (fun e => e.version) := by
  induction n generalizing j with
  | zero => simp [versionsAt]
  | succ m ih =>
    rw [List.range'_succ]
    obtain ⟨e, he⟩ : ∃ e, items.get? j = some e := by
      rw [List.get?_eq_getElem?]
      have : j < items.length := by omega
      simp [List.getElem?_eq_getElem this]
    have hstep : versionsAt items (j :: List.range' (j + 1) m) =
        e.version :: versionsAt items (List.range' (j + 1) m) := by
      have he2 : items[j]? = some e := by rw [← List.get?_eq_getElem?]; exact he
      simp [versionsAt, he2]
    rw [hstep, ih (j + 1) (by omega)]
    have hdrop : items.drop j = e :: items.drop (j + 1) := by
      have hj : j < items.length := by omega
      rw [List.drop_eq_getElem_cons hj]
      congr 1
      rw [List.get?_eq_getElem?] at he
      rw [List.getElem?_eq_getElem hj] at he
      simpa using he
    rw [hdrop]
    simp

/-! ## Planner lemmas -/

theorem cmpEntry_lt_major_le (x y : Entry) (hx : EntryWF x) (hy : EntryWF y)
    (h : cmpEntry x y < 0) : x.major ≤ y.major := by
  rw [cmpEntry_eq_svCmp x y hx hy] at h
  unfold svCmp at h
  by_cases hm : (entryParsed x).major = (entryParsed y).major
  · have : x.major = y.major := hm
    omega
  · have hne : ((entryParsed x).major : Int) - ((entryParsed y).major : Int) ≠ 0 := by
      simp only [entryParsed] at hm ⊢
      omega
    rw [chainCmp_of_ne hne] at h
    simp only [entryParsed] at h
    omega

/-- Spec-side resolution of the `major` upgrade target (§4.3): the
highest-sorted version whose major is the *smallest* registered major
strictly greater than the starting major; the starting version itself if
no greater major exists. -/
def specMajorTarget (items : List Entry) (fr : Entry) : String :=
  match ((items.filter (fun v => fr.major < v.major)).map (fun v => v.major)).min? with
  | none => fr.version
  | some m =>
    (((items.filter (fun v => v.major = m)).map (fun v => v.version)).getLast?).getD fr.version

theorem min?_eq_head (x : Nat) (xs : List Nat) (h : ∀ y ∈ xs, x ≤ y) :
    (x :: xs).min? = some x := by
  rw [List.min?_cons]
  rcases hm : xs.min? with - | m
  · rfl
  · have hmem := List.min?_mem (fun a b => min_choice a b) hm
    have hxm : x ≤ m := h m hmem
    simp [Nat.min_def, hxm]

/-- In a sorted collection, the first version above the starting major
carries the smallest such major, so the code's two-step `major` resolution
computes exactly the spec's formula. -/
theorem major_target_spec (items : List Entry) (hWF : ∀ e ∈ items, EntryWF e)
    (hsorted : items.Pairwise (fun x y => cmpEntry x y < 0)) (fr : Entry) :
    ((match (items.filter (fun v => fr.major < v.major)).head? with
      | some nm =>
        ((items.filter (fun v => v.major = nm.major)).map (fun v => v.version)).getLast?
      | none => none : Option String)).getD fr.version = specMajorTarget items fr := by
  rcases hf : items.filter (fun v => fr.major < v.major) with - | ⟨nm, rest⟩
  · unfold specMajorTarget
    rw [hf]
    rfl
  · unfold specMajorTarget
    rw [hf]
    have hsub : (nm :: rest).Sublist items := hf ▸ List.filter_sublist items
    have hpw : (nm :: rest).Pairwise (fun x y => cmpEntry x y < 0) := hsorted.sublist hsub
    have hmin : ((nm :: rest).map (fun v => v.major)).min? = some nm.major := by
      rw [List.map_cons]
      refine min?_eq_head nm.major (rest.map (fun v => v.major)) ?_
      intro y hy
      obtain ⟨z, hz, rfl⟩ := List.mem_map.mp hy
      have hnm : nm ∈ items := hsub.mem (List.mem_cons_self nm rest)
      have hzm : z ∈ items := hsub.mem (List.mem_cons_of_mem nm hz)
      exact cmpEntry_lt_major_le nm z (hWF nm hnm) (hWF z hzm)
        ((List.pairwise_cons.mp hpw).1 z hz)
    rw [hmin]
    rfl

theorem atIdx_mem (l : List Entry) (i : Int) (e : Entry) (h : atIdx l i = some e) : e ∈ l := by
  unfold atIdx at h
  by_cases hi : i < 0
  · rw [if_pos hi] at h
    by_cases hj : (l.length : Int) + i < 0
    · rw [if_pos hj] at h; simp at h
    · rw [if_neg hj] at h
      exact List.get?_mem h
  · rw [if_neg hi] at h
    exact List.get?_mem h

theorem findVersion_mem (s : MState) (l : String) (b : Bool) (e : Entry)
    (h : findVersion s l b = .ok (some e)) : e ∈ s.items := by
  unfold findVersion at h
  rcases hix : indexOf s l with err | i
  · rw [hix] at h; simp at h
  · rw [hix] at h
    simp only at h
    by_cases hpos : i > -1
    · rw [if_pos hpos] at h
      rcases ha : atIdx s.items i with - | e2
      · rw [ha] at h
        cases b <;> simp at h
      · rw [ha] at h
        simp only [Except.ok.injEq, Option.some.injEq] at h
        rw [← h]
        exact atIdx_mem s.items i e2 ha
    · rw [if_neg hpos] at h
      cases b <;> simp at h

theorem resolveFrom_mem (s : MState) (fl : Option String) (fr : Entry)
    (h : resolveFrom s fl = .ok (some fr)) : fr ∈ s.items := by
  rcases fl with - | l
  · simp only [resolveFrom, Except.ok.injEq] at h
    exact atIdx_mem s.items 0 fr h
  · simp only [resolveFrom] at h
    by_cases hl : l ≠ ("")
    · rw [if_pos hl] at h
      exact findVersion_mem s l true fr h
    · rw [if_neg hl] at h
      simp only [Except.ok.injEq] at h
      exact atIdx_mem s.items 0 fr h

theorem upMeta_latest_eval (s : MState) (hWF : StateWF s) (fromLabel flv : Option String)
    (fr : Entry) (k : Nat) (eN : Entry)
    (hne : s.items ≠ [])
    (hfl : (match fromLabel with
            | some l => (Except.ok (some l) : Except MErr (Option String))
            | none => getActiveVersion s) = .ok flv)
    (hres : resolveFrom s flv = .ok (some fr))
    (hk : s.items.get? k = some fr)
    (hN : s.items.get? (s.items.length - 1) = some eN) :
    upMeta s ("latest") fromLabel =
      .ok (some ⟨fr.version, (k : Int), some eN.version,
        ((s.items.length - 1 : Nat) : Int), decide (flv = none)⟩) := by
  have hWFN := hWF.1 eN (List.get?_mem hN)
  have hto : upMetaTo s ("latest") fr = .ok (some eN.version) := by
    unfold upMetaTo
    rw [if_pos rfl, atIdx_neg_one s.items hne, hN]
    rfl
  have hidx : upMetaIdx s fr (some eN.version) (decide (flv = none)) =
      .ok (some ⟨fr.version, (k : Int), some eN.version,
        ((s.items.length - 1 : Nat) : Int), decide (flv = none)⟩) := by
    unfold upMetaIdx
    rw [indexOf_get s hWF k fr hk]
    rw [show (match some eN.version with
         | some tv => if tv ≠ ("") then indexOf s tv else .ok (-1)
         | none => (.ok (-1) : Except MErr Int)) =
        (if eN.version ≠ ("") then indexOf s eN.version else .ok (-1)) from rfl]
    rw [if_pos (entry_version_ne_empty eN hWFN),
      indexOf_get s hWF (s.items.length - 1) eN hN]
  unfold upMeta
  rw [if_neg hne, hfl]
  show (match resolveFrom s flv with
    | Except.error e => Except.error e
    | Except.ok none => Except.error (MErr.versionNotFound ((flv).getD ("")))
    | Except.ok (some fr2) =>
      match upMetaTo s ("latest") fr2 with
      | Except.error e => Except.error e
      | Except.ok toVersion => upMetaIdx s fr2 toVersion (decide (flv = none))) = _
  rw [hres]
  show (match upMetaTo s ("latest") fr with
    | Except.error e => Except.error e
    | Except.ok toVersion => upMetaIdx s fr toVersion (decide (flv = none))) = _
  rw [hto]
  show upMetaIdx s fr (some eN.version) (decide (flv = none)) = _
  exact hidx

theorem atIdx_zero (l : List Entry) : atIdx l 0 = l.get? 0 := by
  unfold atIdx
  rw [if_neg (by omega)]
  rfl

theorem upMeta_major_inv (s : MState) (fl : Option String) (meta : UpMeta)
    (hWF : StateWF s) (h : upMeta s ("major") fl = .ok (some meta)) :
    ∃ fr ∈ s.items, meta.fromVersion = fr.version ∧
      meta.toVersion = some (specMajorTarget s.items fr) := by
  unfold upMeta at h
  by_cases hne : s.items = []
  · rw [if_pos hne] at h
    simp at h
  · rw [if_neg hne] at h
    rcases hflv : (match fl with
        | some l => (Except.ok (some l) : Except MErr (Option String))
        | none => getActiveVersion s) with err | flv
    · rw [hflv] at h
      simp at h
    · rw [hflv] at h
      have h2 : (match resolveFrom s flv with
        | Except.error e => Except.error e
        | Except.ok none => Except.error (MErr.versionNotFound ((flv).getD ("")))
        | Except.ok (some fr2) =>
          match upMetaTo s ("major") fr2 with
          | Except.error e => Except.error e
          | Except.ok toVersion => upMetaIdx s fr2 toVersion (decide (flv = none))) =
          .ok (some meta) := h
      rcases hres : resolveFrom s flv with err | fr?
      · rw [hres] at h2
        simp at h2
      · rw [hres] at h2
        rcases fr? with - | fr
        · simp at h2
        · have hfr := resolveFrom_mem s flv fr hres
          have h3 : (match upMetaTo s ("major") fr with
            | Except.error e => Except.error e
            | Except.ok toVersion => upMetaIdx s fr toVersion (decide (flv = none))) =
              .ok (some meta) := h2
          rcases hto : upMetaTo s ("major") fr with err | tv
          · rw [hto] at h3
            simp at h3
          · rw [hto] at h3
            have htv : tv = some (specMajorTarget s.items fr) := by
              unfold upMetaTo at hto
              rw [if_neg (by decide), if_pos rfl] at hto
              simp only [Except.ok.injEq] at hto
              rw [← hto, ← major_target_spec s.items hWF.1 hWF.2 fr]
            unfold upMetaIdx at h3
            rcases hfi : indexOf s fr.version with err | fi
            · rw [hfi] at h3
              simp at h3
            · rw [hfi] at h3
              have h4 : (match (match tv with
                  | some tvv => if tvv ≠ ("") then indexOf s tvv else .ok (-1)
                  | none => (.ok (-1) : Except MErr Int)) with
                | Except.error e => Except.error e
                | Except.ok toIndex =>
                  Except.ok (some ⟨fr.version, fi, tv, toIndex, decide (flv = none)⟩)) =
                  (.ok (some meta) : Except MErr (Option UpMeta)) := h3
              rcases hti : (match tv with
                  | some tvv => if tvv ≠ ("") then indexOf s tvv else .ok (-1)
                  | none => (.ok (-1) : Except MErr Int)) with err | ti
              · rw [hti] at h4
                simp at h4
              · rw [hti] at h4
                simp only [Except.ok.injEq, Option.some.injEq] at h4
                subst h4
                exact ⟨fr, hfr, rfl, htv⟩

theorem upMetaTo_minor_fallback (s : MState) (fr : Entry)
    (h : s.items.filter (fun v => v.major = fr.major ∧ v.minor > fr.minor) = []) :
    upMetaTo s ("minor") fr = .ok (some fr.version) := by
  unfold upMetaTo
  rw [if_neg (by decide), if_neg (by decide), if_pos rfl, h]
  rfl

theorem upMetaTo_patch_fallback (s : MState) (fr : Entry)
    (h : s.items.filter (fun v =>
      v.major = fr.major ∧ v.minor = fr.minor ∧ v.patch > fr.patch) = []) :
    upMetaTo s ("patch") fr = .ok (some fr.version) := by
  unfold upMetaTo
  rw [if_neg (by decide), if_neg (by decide), if_neg (by decide), if_pos rfl, h]
  rfl

theorem downMeta_initial_eval (s : MState) (hWF : StateWF s)
    (fr : Entry) (k : Nat) (e0 : Entry)
    (hne : s.items ≠ [])
    (hk : s.items.get? k = some fr)
    (h0 : s.items.get? 0 = some e0) :
    downMeta s ("initial") (some fr.version) =
      .ok (some ⟨fr.version, (k : Int), some e0.version, ((0 : Nat) : Int)⟩) := by
  have hWFr := hWF.1 fr (List.get?_mem hk)
  have hWF0 := hWF.1 e0 (List.get?_mem h0)
  have hto : downMetaTo s ("initial") fr = .ok (some e0.version) := by
    unfold downMetaTo
    rw [if_pos rfl, atIdx_zero, h0]
    rfl
  have hidx : downMetaIdx s fr (some e0.version) =
      .ok (some ⟨fr.version, (k : Int), some e0.version, ((0 : Nat) : Int)⟩) := by
    unfold downMetaIdx
    rw [indexOf_get s hWF k fr hk]
    rw [show (match some e0.version with
         | some tv => if tv ≠ ("") then indexOf s tv else .ok (-1)
         | none => (.ok (-1) : Except MErr Int)) =
        (if e0.version ≠ ("") then indexOf s e0.version else .ok (-1)) from rfl]
    rw [if_pos (entry_version_ne_empty e0 hWF0), indexOf_get s hWF 0 e0 h0]
  unfold downMeta
  rw [if_neg hne]
  show (if fr.version = ("") then Except.error MErr.noActiveVersion
    else match findVersion s fr.version true with
      | Except.error e => Except.error e
      | Except.ok none => Except.error (MErr.versionNotFound fr.version)
      | Except.ok (some fr2) =>
        match downMetaTo s ("initial") fr2 with
        | Except.error e => Except.error e
        | Except.ok toVersion => downMetaIdx s fr2 toVersion) = _
  rw [if_neg (by simp [entry_version_ne_empty fr hWFr]),
    findVersion_entry s hWF k fr hk true]
  show (match downMetaTo s ("initial") fr with
    | Except.error e => Except.error e
    | Except.ok toVersion => downMetaIdx s fr toVersion) = _
  rw [hto]
  show downMetaIdx s fr (some e0.version) = _
  exact hidx

theorem up_run (env : Env) (s : MState) (target : String) (flv : Option String)
    (meta : UpMeta)
    (hga : getActiveVersion s = .ok flv)
    (hmeta : upMeta s target flv = .ok (some meta))
    (h1 : ¬(meta.fromIndex = -1 ∨ meta.toIndex = -1))
    (h2 : ¬(meta.fromIndex ≥ meta.toIndex ∧ ¬meta.isInitial)) :
    up env s target =
      runUpSteps env s.items
        (if meta.isInitial then
          List.range' meta.fromIndex.toNat (meta.toIndex.toNat + 1 - meta.fromIndex.toNat)
         else (List.range' meta.fromIndex.toNat
          (meta.toIndex.toNat + 1 - meta.fromIndex.toNat)).drop 1)
        s 0 [] := by
  unfold up
  rw [hga]
  show (match upMeta s target flv with
    | Except.error e => (Except.error e, [], s)
    | Except.ok none => (Except.error (MErr.targetNotFound target), [], s)
    | Except.ok (some meta) =>
      if meta.fromIndex = -1 ∨ meta.toIndex = -1 then
        (Except.error (MErr.targetNotFound target), [], s)
      else if meta.fromIndex ≥ meta.toIndex ∧ ¬meta.isInitial then (Except.ok 0, [], s)
      else
        let idxs := List.range' meta.fromIndex.toNat
          (meta.toIndex.toNat + 1 - meta.fromIndex.toNat)
        let steps := if meta.isInitial then idxs else idxs.drop 1
        runUpSteps env s.items steps s 0 []) = _
  rw [hmeta]
  show (if meta.fromIndex = -1 ∨ meta.toIndex = -1 then
      (Except.error (MErr.targetNotFound target), [], s)
    else if meta.fromIndex ≥ meta.toIndex ∧ ¬meta.isInitial then (Except.ok 0, [], s)
    else
      runUpSteps env s.items
        (if meta.isInitial then
          List.range' meta.fromIndex.toNat (meta.toIndex.toNat + 1 - meta.fromIndex.toNat)
         else (List.range' meta.fromIndex.toNat
          (meta.toIndex.toNat + 1 - meta.fromIndex.toNat)).drop 1)
        s 0 []) = _
  rw [if_neg h1, if_neg h2]

theorem down_run (env : Env) (s : MState) (target : String) (flv : Option String)
    (meta : DownMeta)
    (hga : getActiveVersion s = .ok flv)
    (hnn : ¬(flv = none ∨ flv = some ("")))
    (hmeta : downMeta s target flv = .ok (some meta))
    (h1 : ¬(meta.fromIndex = -1 ∨ meta.toIndex = -1))
    (h2 : ¬(meta.fromIndex ≤ meta.toIndex)) :
    down env s target =
      runDownSteps env s.items
        ((List.range' (meta.toIndex.toNat + 1)
          (meta.fromIndex.toNat - meta.toIndex.toNat)).reverse)
        s 0 [] := by
  unfold down
  rw [hga]
  show (if flv = none ∨ flv = some ("") then (Except.error MErr.noActiveVersion, [], s)
    else match downMeta s target flv with
      | Except.error e => (Except.error e, [], s)
      | Except.ok none => (Except.error (MErr.targetNotFound target), [], s)
      | Except.ok (some meta) =>
        if meta.fromIndex = -1 ∨ meta.toIndex = -1 then
          (Except.error (MErr.targetNotFound target), [], s)
        else if meta.fromIndex ≤ meta.toIndex then (Except.ok 0, [], s)
        else
          let idxs := (List.range' (meta.toIndex.toNat + 1)
            (meta.fromIndex.toNat - meta.toIndex.toNat)).reverse
          runDownSteps env s.items idxs s 0 []) = _
  rw [if_neg hnn, hmeta]
  show (if meta.fromIndex = -1 ∨ meta.toIndex = -1 then
      (Except.error (MErr.targetNotFound target), [], s)
    else if meta.fromIndex ≤ meta.toIndex then (Except.ok 0, [], s)
    else
      runDownSteps env s.items
        ((List.range' (meta.toIndex.toNat + 1)
          (meta.fromIndex.toNat - meta.toIndex.toNat)).reverse)
        s 0 []) = _
  rw [if_neg h1, if_neg h2]

theorem up_latest_initial (env : Env) (s : MState)
    (hWF : StateWF s) (hne : s.items ≠ []) (hstored : s.stored = none)
    (henv : ∀ e ∈ s.items, env.upFails e.version = false ∧
      env.setFails (some e.version) = false) :
    up env s ("latest") =
      (.ok s.items.length, upStepEvents (available s), afterSteps s (available s)) := by
  have hlen : 0 < s.items.length := List.length_pos.mpr hne
  obtain ⟨e0, h0⟩ : ∃ e, s.items.get? 0 = some e := by
    rw [List.get?_eq_getElem?]
    simp [List.getElem?_eq_getElem hlen]
  obtain ⟨eN, hN⟩ : ∃ e, s.items.get? (s.items.length - 1) = some e := by
    rw [List.get?_eq_getElem?]
    have hl : s.items.length - 1 < s.items.length := by omega
    simp [List.getElem?_eq_getElem hl]
  have hga := getActiveVersion_none s hstored
  have hres : resolveFrom s none = .ok (some e0) := by
    rw [resolveFrom_falsy s none (Or.inl rfl), atIdx_zero, h0]
  have hmeta := upMeta_latest_eval s hWF none none e0 0 eN hne hga hres h0 hN
  rw [up_run env s ("latest") none _ hga hmeta
    (by
      show ¬(((0 : Nat) : Int) = -1 ∨ ((s.items.length - 1 : Nat) : Int) = -1)
      omega)
    (by
      show ¬(((0 : Nat) : Int) ≥ ((s.items.length - 1 : Nat) : Int) ∧
        ¬(decide ((none : Option String) = none) = true))
      simp)]
  show runUpSteps env s.items
    (List.range' ((0 : Nat) : Int).toNat
      (((s.items.length - 1 : Nat) : Int).toNat + 1 - ((0 : Nat) : Int).toNat))
    s 0 [] = _
  have hrange : ((0 : Nat) : Int).toNat = 0 ∧
      ((s.items.length - 1 : Nat) : Int).toNat = s.items.length - 1 := by
    constructor <;> simp
  rw [hrange.1, hrange.2,
    show s.items.length - 1 + 1 - 0 = s.items.length from by omega]
  have hok : ∀ i ∈ List.range' 0 s.items.length, ∃ e, s.items.get? i = some e ∧
      env.upFails e.version = false ∧ env.setFails (some e.version) = false := by
    intro i hi
    rw [List.mem_range'_1] at hi
    obtain ⟨e, he⟩ : ∃ e, s.items.get? i = some e := by
      rw [List.get?_eq_getElem?]
      have hl : i < s.items.length := by omega
      simp [List.getElem?_eq_getElem hl]
    exact ⟨e, he, henv e (List.get?_mem he)⟩
  rw [runUpSteps_allOk env s.items (List.range' 0 s.items.length) s 0 [] rfl hWF.1 hWF.2 hok]
  rw [versionsAt_range s.items 0 s.items.length (by omega)]
  simp [available]

theorem up_latest_from (env : Env) (s : MState) (k : Nat) (ek : Entry)
    (hWF : StateWF s)
    (hk : s.items.get? k = some ek)
    (hstored : s.stored = some ek.version)
    (hlt : k + 1 < s.items.length)
    (henv : ∀ e ∈ s.items, env.upFails e.version = false ∧
      env.setFails (some e.version) = false) :
    up env s ("latest") =
      (.ok (s.items.length - 1 - k),
        upStepEvents (versionsAt s.items (List.range' (k + 1) (s.items.length - 1 - k))),
        afterSteps s (versionsAt s.items (List.range' (k + 1) (s.items.length - 1 - k)))) := by
  have hne : s.items ≠ [] := List.ne_nil_of_length_pos (by omega)
  obtain ⟨eN, hN⟩ : ∃ e, s.items.get? (s.items.length - 1) = some e := by
    rw [List.get?_eq_getElem?]
    have hl : s.items.length - 1 < s.items.length := by omega
    simp [List.getElem?_eq_getElem hl]
  have hWFk := hWF.1 ek (List.get?_mem hk)
  have hga := getActiveVersion_entry s ek hWFk hstored
  have hres := resolveFrom_entry s hWF k ek hk
  have hmeta := upMeta_latest_eval s hWF (some ek.version) (some ek.version) ek k eN hne
    rfl hres hk hN
  rw [up_run env s ("latest") (some ek.version) _ hga hmeta
    (by
      show ¬((k : Int) = -1 ∨ ((s.items.length - 1 : Nat) : Int) = -1)
      omega)
    (by
      show ¬((k : Int) ≥ ((s.items.length - 1 : Nat) : Int) ∧
        ¬(decide ((some ek.version : Option String) = none) = true))
      intro hcon
      have := hcon.1
      omega)]
  show runUpSteps env s.items
    ((List.range' ((k : Int)).toNat
      (((s.items.length - 1 : Nat) : Int).toNat + 1 - ((k : Int)).toNat)).drop 1)
    s 0 [] = _
  have ht1 : ((k : Int)).toNat = k := by simp
  have ht2 : ((s.items.length - 1 : Nat) : Int).toNat = s.items.length - 1 := by simp
  rw [ht1, ht2,
    show s.items.length - 1 + 1 - k = (s.items.length - 1 - k) + 1 from by omega,
    List.range'_succ]
  rw [show (k :: List.range' (k + 1) (s.items.length - 1 - k)).drop 1 =
    List.range' (k + 1) (s.items.length - 1 - k) from rfl]
  have hok : ∀ i ∈ List.range' (k + 1) (s.items.length - 1 - k),
      ∃ e, s.items.get? i = some e ∧
      env.upFails e.version = false ∧ env.setFails (some e.version) = false := by
    intro i hi
    rw [List.mem_range'_1] at hi
    obtain ⟨e, he⟩ : ∃ e, s.items.get? i = some e := by
      rw [List.get?_eq_getElem?]
      have hl : i < s.items.length := by omega
      simp [List.getElem?_eq_getElem hl]
    exact ⟨e, he, henv e (List.get?_mem he)⟩
  rw [runUpSteps_allOk env s.items _ s 0 [] rfl hWF.1 hWF.2 hok]
  simp [List.length_range']

theorem down_initial_from (env : Env) (s : MState) (k : Nat) (ek : Entry)
    (hWF : StateWF s)
    (hk : s.items.get? k = some ek)
    (hstored : s.stored = some ek.version)
    (hpos : 1 ≤ k)
    (henv : ∀ e ∈ s.items, env.downFails e.version = false ∧
      env.setFails (some e.version) = false) :
    down env s ("initial") =
      (.ok k,
        downStepEvents (downPairs s.items (List.range' 1 k).reverse),
        afterSteps s ((downPairs s.items (List.range' 1 k).reverse).map Prod.snd)) := by
  have hklen : k < s.items.length := by
    obtain ⟨hl, -⟩ := List.get?_eq_some.mp hk
    exact hl
  have hne : s.items ≠ [] := List.ne_nil_of_length_pos (by omega)
  obtain ⟨e0, h0⟩ : ∃ e, s.items.get? 0 = some e := by
    rw [List.get?_eq_getElem?]
    have hl : 0 < s.items.length := by omega
    simp [List.getElem?_eq_getElem hl]
  have hWFk := hWF.1 ek (List.get?_mem hk)
  have hga := getActiveVersion_entry s ek hWFk hstored
  have hmeta := downMeta_initial_eval s hWF ek k e0 hne hk h0
  rw [down_run env s ("initial") (some ek.version) _ hga
    (by
      rintro (hcon | hcon)
      · exact Option.noConfusion hcon
      · exact entry_version_ne_empty ek hWFk (Option.some.inj hcon))
    hmeta
    (by
      show ¬((k : Int) = -1 ∨ ((0 : Nat) : Int) = -1)
      omega)
    (by
      show ¬((k : Int) ≤ ((0 : Nat) : Int))
      omega)]
  show runDownSteps env s.items
    ((List.range' (((0 : Nat) : Int).toNat + 1) ((k : Int).toNat - ((0 : Nat) : Int).toNat)).reverse)
    s 0 [] = _
  have ht1 : ((0 : Nat) : Int).toNat + 1 = 1 := by simp
  have ht2 : ((k : Int)).toNat - ((0 : Nat) : Int).toNat = k := by simp
  rw [ht1, ht2]
  have hok : ∀ i ∈ (List.range' 1 k).reverse, 1 ≤ i ∧
      ∃ e t, s.items.get? i = some e ∧ s.items.get? (i - 1) = some t ∧
      env.downFails e.version = false ∧ env.setFails (some t.version) = false := by
    intro i hi
    rw [List.mem_reverse, List.mem_range'_1] at hi
    obtain ⟨e, he⟩ : ∃ e, s.items.get? i = some e := by
      rw [List.get?_eq_getElem?]
      have hl : i < s.items.length := by omega
      simp [List.getElem?_eq_getElem hl]
    obtain ⟨t, htg⟩ : ∃ t, s.items.get? (i - 1) = some t := by
      rw [List.get?_eq_getElem?]
      have hl : i - 1 < s.items.length := by omega
      simp [List.getElem?_eq_getElem hl]
    exact ⟨hi.1, e, t, he, htg,
      (henv e (List.get?_mem he)).1, (henv t (List.get?_mem htg)).2⟩
  rw [runDownSteps_allOk env s.items _ s 0 [] rfl hWF.1 hWF.2 hok]
  simp [List.length_reverse, List.length_range']

/-! ## Uninstall composition -/

theorem uninstall_noop (env : Env) (s : MState) (hstored : s.stored = none) :
    uninstall env s = (.ok 0, [], s) := by
  unfold uninstall
  rw [getActiveVersion_none s hstored]

theorem uninstall_comp (env : Env) (s : MState) (k : Nat) (ek : Entry)
    (hWF : StateWF s)
    (hk : s.items.get? k = some ek)
    (hstored : s.stored = some ek.version)
    (n : Nat) (tr : List Event) (s1 : MState)
    (hdown : down env s ("initial") = (.ok n, tr, s1))
    (e0 : Entry) (h0 : s1.items.get? 0 = some e0)
    (hdf : env.downFails e0.version = false)
    (hsf : env.setFails none = false) :
    uninstall env s =
      (.ok (n + 1), tr ++ [.downAct e0.version, .extSet none],
        { s1 with activeMem := none, stored := none }) ∧
    getActiveVersion { s1 with activeMem := none, stored := none } = .ok none := by
  constructor
  · unfold uninstall
    rw [getActiveVersion_entry s ek (hWF.1 ek (List.get?_mem hk)) hstored]
    show (match down env s ("initial") with
      | (Except.error e, tr, s1) => (Except.error e, tr, s1)
      | (Except.ok n, tr, s1) =>
        match s1.items.get? 0 with
        | none => (Except.error MErr.uninstallFailed, tr, s1)
        | some v0 =>
          if env.downFails v0.version then
            (Except.error MErr.uninstallFailed, tr ++ [Event.downAct v0.version], s1)
          else
            match setActiveVersion env s1 SetTarget.unset with
            | (Except.error _, ev, s2) =>
              (Except.error (MErr.persistenceFailed none),
                tr ++ Event.downAct v0.version :: ev, s2)
            | (Except.ok _, ev, s2) =>
              (Except.ok (n + 1), tr ++ Event.downAct v0.version :: ev, s2)) = _
    rw [hdown]
    show (match s1.items.get? 0 with
      | none => (Except.error MErr.uninstallFailed, tr, s1)
      | some v0 =>
        if env.downFails v0.version then
          (Except.error MErr.uninstallFailed, tr ++ [Event.downAct v0.version], s1)
        else
          match setActiveVersion env s1 SetTarget.unset with
          | (Except.error _, ev, s2) =>
            (Except.error (MErr.persistenceFailed none),
              tr ++ Event.downAct v0.version :: ev, s2)
          | (Except.ok _, ev, s2) =>
            (Except.ok (n + 1), tr ++ Event.downAct v0.version :: ev, s2)) = _
    rw [h0]
    show (if env.downFails e0.version then
        (Except.error MErr.uninstallFailed, tr ++ [Event.downAct e0.version], s1)
      else
        match setActiveVersion env s1 SetTarget.unset with
        | (Except.error _, ev, s2) =>
          (Except.error (MErr.persistenceFailed none),
            tr ++ Event.downAct e0.version :: ev, s2)
        | (Except.ok _, ev, s2) =>
          (Except.ok (n + 1), tr ++ Event.downAct e0.version :: ev, s2)) = _
    rw [if_neg (by simp [hdf]), setActiveVersion_unset_ok env s1 hsf]
  · exact getActiveVersion_none _ rfl

/-! ## The claims -/

/-- The hand-ordered reference list of §8 of the spec. -/
def refList : List String :=
  [("1.0.0-alpha.1"), ("1.0.0-alpha.beta"), ("1.0.0-beta"), ("1.0.0"),
   ("1.1.0-alpha"), ("1.1.0-alpha.1"), ("1.1.0"), ("1.1.0+build.123"),
   ("1.2.0"), ("1.10.0"), ("2.0.0")]

/-- Boolean ascending check for a pair of version strings. -/
def ltB (a b : String) : Bool :=
  match compareSemver a b with
  | some c => decide (c < 0)
  | none => false

theorem ltB_semverLt (a b : String) (h : ltB a b = true) : SemverLt a b := by
  unfold ltB at h
  rcases hc : compareSemver a b with - | c
  · rw [hc] at h
    simp at h
  · rw [hc] at h
    exact ⟨c, hc, of_decide_eq_true h⟩

/-- C1.  When two version strings agree on all five precedence stages
(numeric triple, pre-release flag, pre-release identifiers), `compareSemver`
returns exactly the code-point comparison of the two original input strings
— build metadata never enters the comparison — and the spec's hand-ordered
reference list is already in strictly ascending `compareSemver` order. -/
theorem compareSemver_build_tiebreak (a b : String) (vA vB : Parsed)
    (ha : parseSemver a = some vA) (hb : parseSemver b = some vB)
    (h1 : vA.major = vB.major) (h2 : vA.minor = vB.minor) (h3 : vA.patch = vB.patch)
    (h4 : flagRank vA = flagRank vB) (h5 : idCmp (identsOf vA) (identsOf vB) = 0) :
    compareSemver a b = some (lexCmpS a b) ∧ refList.Pairwise SemverLt := by
  constructor
  · rw [compareSemver_eq_svCmp ha hb]
    show some (chainCmp ((vA.major : Int) - (vB.major : Int))
      (chainCmp ((vA.minor : Int) - (vB.minor : Int))
      (chainCmp ((vA.patch : Int) - (vB.patch : Int))
      (chainCmp ((flagRank vA : Int) - (flagRank vB : Int))
      (chainCmp (idCmp (identsOf vA) (identsOf vB))
      (lexCmpS a b)))))) = some (lexCmpS a b)
    rw [chainCmp_of_eq (by omega : (vA.major : Int) - (vB.major : Int) = 0),
      chainCmp_of_eq (by omega : (vA.minor : Int) - (vB.minor : Int) = 0),
      chainCmp_of_eq (by omega : (vA.patch : Int) - (vB.patch : Int) = 0),
      chainCmp_of_eq (by omega : ((flagRank vA : Int)) - ((flagRank vB : Int)) = 0),
      chainCmp_of_eq h5]
  · have hB : refList.Pairwise (fun a b => ltB a b = true) := by decide
    exact hB.imp (fun h => ltB_semverLt _ _ h)

theorem compareSemver_build_tiebreak_witness :
    compareSemver ("1.1.0+build.123") ("1.1.0") =
      some (lexCmpS ("1.1.0+build.123") ("1.1.0")) ∧ refList.Pairwise SemverLt :=
  compareSemver_build_tiebreak ("1.1.0+build.123") ("1.1.0")
    ⟨1, 1, 0, (""), ("build.123")⟩ ⟨1, 1, 0, (""), ("")⟩
    (by decide) (by decide) rfl rfl rfl rfl (by decide)

/-- C2.  `compareSemver` is a total order on parseable version strings:
reflexively zero, antisymmetric in sign, and transitive in the negative
case. -/
theorem compareSemver_total_order (a b c : String) (vA vB vC : Parsed)
    (ha : parseSemver a = some vA) (hb : parseSemver b = some vB)
    (hc : parseSemver c = some vC) :
    compareSemver a a = some 0 ∧
    (∀ x, compareSemver a b = some x → compareSemver b a = some (-x)) ∧
    (∀ x y, compareSemver a b = some x → compareSemver b c = some y →
      x < 0 → y < 0 → ∃ z, compareSemver a c = some z ∧ z < 0) := by
  refine ⟨?_, ?_, ?_⟩
  · rw [compareSemver_eq_svCmp ha ha, goodSvCmp.refl_zero]
  · intro x hx
    rw [compareSemver_eq_svCmp ha hb] at hx
    simp only [Option.some.injEq] at hx
    rw [compareSemver_eq_svCmp hb ha, goodSvCmp.antisym (b, vB) (a, vA), hx]
  · intro x y hx hy hxneg hyneg
    rw [compareSemver_eq_svCmp ha hb] at hx
    rw [compareSemver_eq_svCmp hb hc] at hy
    simp only [Option.some.injEq] at hx hy
    exact ⟨svCmp (a, vA) (c, vC), compareSemver_eq_svCmp ha hc,
      goodSvCmp.trans_lt (a, vA) (b, vB) (c, vC)
        (by rw [hx]; exact hxneg) (by rw [hy]; exact hyneg)⟩

theorem compareSemver_total_order_witness :
    compareSemver ("1.0.0") ("1.0.0") = some 0 ∧
    (∀ x, compareSemver ("1.0.0") ("1.1.0") = some x →
      compareSemver ("1.1.0") ("1.0.0") = some (-x)) ∧
    (∀ x y, compareSemver ("1.0.0") ("1.1.0") = some x →
      compareSemver ("1.1.0") ("2.0.0") = some y →
      x < 0 → y < 0 → ∃ z, compareSemver ("1.0.0") ("2.0.0") = some z ∧ z < 0) :=
  compareSemver_total_order ("1.0.0") ("1.1.0") ("2.0.0")
    ⟨1, 0, 0, (""), ("")⟩ ⟨1, 1, 0, (""), ("")⟩ ⟨2, 0, 0, (""), ("")⟩
    (by decide) (by decide) (by decide)

/-- C3.  Every output of strict `normalizeSemver` is a fixed point of the
function (idempotence) and matches the canonical
`MAJOR.MINOR.PATCH[-PRERELEASE][+BUILD]` shape. -/
theorem normalizeSemver_idempotent_canonical (x y : String)
    (h : normalizeSemver x true = some y) :
    normalizeSemver y true = some y ∧ IsCanonical y :=
  normalizeSemver_idem x y h

theorem normalizeSemver_idempotent_canonical_witness :
    normalizeSemver ("1.2.0") true = some ("1.2.0") ∧ IsCanonical ("1.2.0") :=
  normalizeSemver_idempotent_canonical ("v1.2") ("1.2.0") (by decide)

/-- C4.  `normalizeSemver` completes partial forms: a bare digit run `N`
(optionally prefixed with `v` or `V`) yields `N.0.0`; `N.M` yields `N.M.0`;
a `-prerelease` and/or `+build` suffix is preserved while the missing
numeric segments default to `0`; and an input rejected in strict mode
yields `0.0.0` in lenient mode. -/
theorem normalizeSemver_partial_forms (d1 d2 t : List Char)
    (h1 : d1 ≠ []) (h1d : ∀ c ∈ d1, c.isDigit = true)
    (h2 : d2 ≠ []) (h2d : ∀ c ∈ d2, c.isDigit = true)
    (ht : t ≠ []) (htnl : noNL t = true) :
    (normalizeSemver ⟨d1⟩ true = some ⟨d1 ++ ('.' :: '0' :: '.' :: '0' :: [])⟩ ∧
     normalizeSemver ⟨'v' :: d1⟩ true = some ⟨d1 ++ ('.' :: '0' :: '.' :: '0' :: [])⟩ ∧
     normalizeSemver ⟨'V' :: d1⟩ true = some ⟨d1 ++ ('.' :: '0' :: '.' :: '0' :: [])⟩) ∧
    normalizeSemver ⟨d1 ++ '.' :: d2⟩ true =
      some ⟨d1 ++ '.' :: (d2 ++ ('.' :: '0' :: []))⟩ ∧
    normalizeSemver ⟨d1 ++ '-' :: t⟩ true =
      some ⟨d1 ++ ('.' :: '0' :: '.' :: '0' :: '-' :: t)⟩ ∧
    normalizeSemver ⟨d1 ++ '+' :: t⟩ true =
      some ⟨d1 ++ ('.' :: '0' :: '.' :: '0' :: '+' :: t)⟩ ∧
    normalizeSemver ⟨d1 ++ '.' :: (d2 ++ '-' :: t)⟩ true =
      some ⟨d1 ++ '.' :: (d2 ++ ('.' :: '0' :: '-' :: t))⟩ ∧
    normalizeSemver ⟨d1 ++ '.' :: (d2 ++ '+' :: t)⟩ true =
      some ⟨d1 ++ '.' :: (d2 ++ ('.' :: '0' :: '+' :: t))⟩ ∧
    (∀ x : String, normalizeSemver x true = none →
      normalizeSemver x false = some ("0.0.0")) :=
  ⟨normalizeSemver_digits d1 h1 h1d,
   normalizeSemver_two_digits d1 d2 h1 h1d h2 h2d,
   normalizeSemver_hyphen d1 t h1 h1d ht htnl,
   normalizeSemver_plus d1 t h1 h1d ht htnl,
   normalizeSemver_two_hyphen d1 d2 t h1 h1d h2 h2d ht htnl,
   normalizeSemver_two_plus d1 d2 t h1 h1d h2 h2d ht htnl,
   fun x hx => (normalizeSemver_modes x).1 hx⟩

theorem normalizeSemver_partial_forms_witness :
    (normalizeSemver ⟨[('1')]⟩ true =
      some ⟨[('1')] ++ ('.' :: '0' :: '.' :: '0' :: [])⟩ ∧
     normalizeSemver ⟨'v' :: [('1')]⟩ true =
      some ⟨[('1')] ++ ('.' :: '0' :: '.' :: '0' :: [])⟩ ∧
     normalizeSemver ⟨'V' :: [('1')]⟩ true =
      some ⟨[('1')] ++ ('.' :: '0' :: '.' :: '0' :: [])⟩) ∧
    normalizeSemver ⟨[('1')] ++ '.' :: [('2')]⟩ true =
      some ⟨[('1')] ++ '.' :: ([('2')] ++ ('.' :: '0' :: []))⟩ ∧
    normalizeSemver ⟨[('1')] ++ '-' :: [('a')]⟩ true =
      some ⟨[('1')] ++ ('.' :: '0' :: '.' :: '0' :: '-' :: [('a')])⟩ ∧
    normalizeSemver ⟨[('1')] ++ '+' :: [('a')]⟩ true =
      some ⟨[('1')] ++ ('.' :: '0' :: '.' :: '0' :: '+' :: [('a')])⟩ ∧
    normalizeSemver ⟨[('1')] ++ '.' :: ([('2')] ++ '-' :: [('a')])⟩ true =
      some ⟨[('1')] ++ '.' :: ([('2')] ++ ('.' :: '0' :: '-' :: [('a')]))⟩ ∧
    normalizeSemver ⟨[('1')] ++ '.' :: ([('2')] ++ '+' :: [('a')])⟩ true =
      some ⟨[('1')] ++ '.' :: ([('2')] ++ ('.' :: '0' :: '+' :: [('a')]))⟩ ∧
    (∀ x : String, normalizeSemver x true = none →
      normalizeSemver x false = some ("0.0.0")) :=
  normalizeSemver_partial_forms [('1')] [('2')] [('a')]
    (by decide) (by decide) (by decide) (by decide) (by decide) (by decide)

/-- `StateWF` from its two (decidable) components, for concrete states. -/
theorem stateWF_decide (s : MState)
    (h1 : ∀ e ∈ s.items, normalizeSemver e.version true = some e.version ∧
      parseSemver e.version = some ⟨e.major, e.minor, e.patch, e.prerelease, e.build⟩)
    (h2 : s.items.Pairwise (fun x y => cmpEntry x y < 0)) :
    StateWF s := ⟨h1, h2⟩

/-- The engine after registering the spec's example labels
`["v4","v1","v2","3.5","v3.5.0-foo"]`. -/
def exampleState : MState :=
  (addVersions initState
    [("v4"), ("v1"), ("v2"), ("3.5"), ("v3.5.0-foo")]).toOption.getD initState

/-- C5.  From any well-formed engine state, every successful sequence of
`addVersion` calls leaves `available` strictly ascending under
`compareSemver` with no duplicates; the spec's example registration yields
exactly the expected list; and adding a label whose normalized form is
already registered fails with a duplicate-version error. -/
theorem addVersion_available_invariant (s : MState) (labels : List String) (s2 : MState)
    (hWF : StateWF s) (h : addVersions s labels = .ok s2) :
    ((available s2).Pairwise SemverLt ∧ (available s2).Nodup) ∧
    (addVersions initState [("v4"), ("v1"), ("v2"), ("3.5"), ("v3.5.0-foo")] =
        .ok exampleState ∧
      available exampleState =
        [("1.0.0"), ("2.0.0"), ("3.5.0-foo"), ("3.5.0"), ("4.0.0")] ∧
      addVersion exampleState ("v1") = .error (.duplicateVersion ("v1"))) ∧
    (∀ l e x, mkEntry l = some e → x ∈ s2.items → x.version = e.version →
      addVersion s2 l = .error (.duplicateVersion l)) := by
  have hWF2 := (addVersions_ok labels s s2 h hWF).1
  refine ⟨⟨available_sorted s2 hWF2, available_nodup s2 hWF2⟩, ⟨rfl, rfl, rfl⟩, ?_⟩
  intro l e x hm hx hv
  unfold addVersion
  rw [hm]
  have hany : (s2.items.any fun y => y.version = e.version) = true :=
    List.any_eq_true.mpr ⟨x, hx, by simp [hv]⟩
  show (if s2.items.any (fun x => x.version = e.version) then
      Except.error (MErr.duplicateVersion l)
    else Except.ok { s2 with items := insertSorted e s2.items }) = _
  rw [if_pos hany]

theorem addVersion_available_invariant_witness :
    ((available exampleState).Pairwise SemverLt ∧ (available exampleState).Nodup) ∧
    (addVersions initState [("v4"), ("v1"), ("v2"), ("3.5"), ("v3.5.0-foo")] =
        .ok exampleState ∧
      available exampleState =
        [("1.0.0"), ("2.0.0"), ("3.5.0-foo"), ("3.5.0"), ("4.0.0")] ∧
      addVersion exampleState ("v1") = .error (.duplicateVersion ("v1"))) ∧
    (∀ l e x, mkEntry l = some e → x ∈ exampleState.items → x.version = e.version →
      addVersion exampleState l = .error (.duplicateVersion l)) :=
  addVersion_available_invariant initState
    [("v4"), ("v1"), ("v2"), ("3.5"), ("v3.5.0-foo")] exampleState initState_WF rfl

/-- C6.  With exactly four registered versions, all external calls
succeeding and nothing active: `up("latest")` runs all four up actions in
ascending order and reports 4; the following `down("initial")` runs the top
three down actions in descending order and reports 3; the following
`up("latest")` runs only the upper three up actions (the lowest, already
active, is skipped) and reports 3. -/
theorem up_down_up_four_versions (env : Env) (am : Option String) (e1 e2 e3 e4 : Entry)
    (hWF : StateWF ⟨[e1, e2, e3, e4], am, none⟩)
    (henv : ∀ e ∈ [e1, e2, e3, e4], env.upFails e.version = false ∧
      env.downFails e.version = false ∧ env.setFails (some e.version) = false) :
    ∃ s1 s2 s3,
      up env ⟨[e1, e2, e3, e4], am, none⟩ ("latest") =
        (.ok 4, upStepEvents [e1.version, e2.version, e3.version, e4.version], s1) ∧
      down env s1 ("initial") =
        (.ok 3, downStepEvents [(e4.version, e3.version), (e3.version, e2.version),
          (e2.version, e1.version)], s2) ∧
      up env s2 ("latest") =
        (.ok 3, upStepEvents [e2.version, e3.version, e4.version], s3) := by
  have h1 : up env ⟨[e1, e2, e3, e4], am, none⟩ ("latest") =
      (.ok 4, upStepEvents [e1.version, e2.version, e3.version, e4.version],
        (⟨[e1, e2, e3, e4], some e4.version, some e4.version⟩ : MState)) :=
    up_latest_initial env ⟨[e1, e2, e3, e4], am, none⟩ hWF (by simp) rfl
      (fun e he => ⟨(henv e he).1, (henv e he).2.2⟩)
  have h2 : down env (⟨[e1, e2, e3, e4], some e4.version, some e4.version⟩ : MState)
      ("initial") =
      (.ok 3, downStepEvents [(e4.version, e3.version), (e3.version, e2.version),
        (e2.version, e1.version)],
        (⟨[e1, e2, e3, e4], some e1.version, some e1.version⟩ : MState)) :=
    down_initial_from env _ 3 e4 ⟨hWF.1, hWF.2⟩ rfl rfl (by omega)
      (fun e he => ⟨(henv e he).2.1, (henv e he).2.2⟩)
  have h3 : up env (⟨[e1, e2, e3, e4], some e1.version, some e1.version⟩ : MState)
      ("latest") =
      (.ok 3, upStepEvents [e2.version, e3.version, e4.version],
        (⟨[e1, e2, e3, e4], some e4.version, some e4.version⟩ : MState)) :=
    up_latest_from env _ 0 e1 ⟨hWF.1, hWF.2⟩ rfl rfl
      (by show 0 + 1 < 4; omega)
      (fun e he => ⟨(henv e he).1, (henv e he).2.2⟩)
  exact ⟨_, _, _, h1, h2, h3⟩

theorem up_down_up_four_versions_witness :
    ∃ s1 s2 s3,
      up allOk ⟨[⟨("1.0.0"), 1, 0, 0, (""), ("")⟩, ⟨("1.1.0"), 1, 1, 0, (""), ("")⟩,
          ⟨("2.0.0"), 2, 0, 0, (""), ("")⟩, ⟨("3.0.0"), 3, 0, 0, (""), ("")⟩],
          none, none⟩ ("latest") =
        (.ok 4, upStepEvents [("1.0.0"), ("1.1.0"), ("2.0.0"), ("3.0.0")], s1) ∧
      down allOk s1 ("initial") =
        (.ok 3, downStepEvents [(("3.0.0"), ("2.0.0")), (("2.0.0"), ("1.1.0")),
          (("1.1.0"), ("1.0.0"))], s2) ∧
      up allOk s2 ("latest") =
        (.ok 3, upStepEvents [("1.1.0"), ("2.0.0"), ("3.0.0")], s3) :=
  up_down_up_four_versions allOk none
    ⟨("1.0.0"), 1, 0, 0, (""), ("")⟩ ⟨("1.1.0"), 1, 1, 0, (""), ("")⟩
    ⟨("2.0.0"), 2, 0, 0, (""), ("")⟩ ⟨("3.0.0"), 3, 0, 0, (""), ("")⟩
    (stateWF_decide _ (by decide) (by decide)) (by decide)

/-- C7.  In the `up` loop: a failing up action aborts with an
upgrade-failed error naming the version, no later step runs, and the state
keeps the last successfully persisted version; a failing persistence aborts
with a persistence-failed error after the action ran; and on success the
returned count is exactly the number of steps whose action and persistence
both completed. -/
theorem up_failure_semantics (env : Env) (s : MState) (target : String)
    (flv : Option String) (meta : UpMeta) (pre post : List Nat) (i : Nat) (e : Entry)
    (hWF : StateWF s)
    (hga : getActiveVersion s = .ok flv)
    (hmeta : upMeta s target flv = .ok (some meta))
    (h1 : ¬(meta.fromIndex = -1 ∨ meta.toIndex = -1))
    (h2 : ¬(meta.fromIndex ≥ meta.toIndex ∧ ¬meta.isInitial))
    (hsteps : (if meta.isInitial then
        List.range' meta.fromIndex.toNat (meta.toIndex.toNat + 1 - meta.fromIndex.toNat)
      else (List.range' meta.fromIndex.toNat
        (meta.toIndex.toNat + 1 - meta.fromIndex.toNat)).drop 1) = pre ++ i :: post)
    (hpre : ∀ j ∈ pre, ∃ q, s.items.get? j = some q ∧ env.upFails q.version = false ∧
      env.setFails (some q.version) = false)
    (hget : s.items.get? i = some e) :
    (env.upFails e.version = true →
      up env s target =
        (.error (.upgradeFailed e.version),
          upStepEvents (versionsAt s.items pre) ++ [.upAct e.version],
          afterSteps s (versionsAt s.items pre))) ∧
    (env.upFails e.version = false → env.setFails (some e.version) = true →
      up env s target =
        (.error (.persistenceFailed (some e.version)),
          upStepEvents (versionsAt s.items pre) ++
            [.upAct e.version, .extSet (some e.version)],
          { afterSteps s (versionsAt s.items pre) with activeMem := some e.version })) ∧
    ((∀ j ∈ pre ++ i :: post, ∃ q, s.items.get? j = some q ∧
        env.upFails q.version = false ∧ env.setFails (some q.version) = false) →
      up env s target =
        (.ok (pre ++ i :: post).length,
          upStepEvents (versionsAt s.items (pre ++ i :: post)),
          afterSteps s (versionsAt s.items (pre ++ i :: post)))) := by
  have hup := up_run env s target flv meta hga hmeta h1 h2
  rw [hsteps] at hup
  refine ⟨?_, ?_, ?_⟩
  · intro hfail
    rw [hup, runUpSteps_append,
      runUpSteps_allOk env s.items pre s 0 [] rfl hWF.1 hWF.2 hpre]
    show runUpSteps env s.items (i :: post) (afterSteps s (versionsAt s.items pre))
      (0 + pre.length) ([] ++ upStepEvents (versionsAt s.items pre)) = _
    rw [runUpSteps_action_fail env s.items i post _ _ _ e hget hfail]
    simp
  · intro hok hfail
    rw [hup, runUpSteps_append,
      runUpSteps_allOk env s.items pre s 0 [] rfl hWF.1 hWF.2 hpre]
    show runUpSteps env s.items (i :: post) (afterSteps s (versionsAt s.items pre))
      (0 + pre.length) ([] ++ upStepEvents (versionsAt s.items pre)) = _
    rw [runUpSteps_persist_fail env s.items i post _ _ _ e (afterSteps_items s _)
      ⟨by rw [afterSteps_items]; exact hWF.1, by rw [afterSteps_items]; exact hWF.2⟩
      hget hok hfail]
    simp
  · intro hall
    rw [hup, runUpSteps_allOk env s.items _ s 0 [] rfl hWF.1 hWF.2 hall]
    simp

/-- An environment whose only failure is the `up` action of `2.0.0`. -/
def failEnv : Env := ⟨fun v => decide (v = ("2.0.0")), fun _ => false, fun _ => false⟩

/-- A two-version engine with nothing active. -/
def twoState : MState :=
  ⟨[⟨("1.0.0"), 1, 0, 0, (""), ("")⟩, ⟨("2.0.0"), 2, 0, 0, (""), ("")⟩], none, none⟩

theorem up_failure_semantics_witness :
    (failEnv.upFails ("2.0.0") = true →
      up failEnv twoState ("latest") =
        (.error (.upgradeFailed ("2.0.0")),
          upStepEvents (versionsAt twoState.items [0]) ++ [.upAct ("2.0.0")],
          afterSteps twoState (versionsAt twoState.items [0]))) ∧
    (failEnv.upFails ("2.0.0") = false → failEnv.setFails (some ("2.0.0")) = true →
      up failEnv twoState ("latest") =
        (.error (.persistenceFailed (some ("2.0.0"))),
          upStepEvents (versionsAt twoState.items [0]) ++
            [.upAct ("2.0.0"), .extSet (some ("2.0.0"))],
          { afterSteps twoState (versionsAt twoState.items [0]) with
            activeMem := some ("2.0.0") })) ∧
    ((∀ j ∈ [0] ++ 1 :: [], ∃ q, twoState.items.get? j = some q ∧
        failEnv.upFails q.version = false ∧ failEnv.setFails (some q.version) = false) →
      up failEnv twoState ("latest") =
        (.ok ([0] ++ 1 :: []).length,
          upStepEvents (versionsAt twoState.items ([0] ++ 1 :: [])),
          afterSteps twoState (versionsAt twoState.items ([0] ++ 1 :: [])))) :=
  up_failure_semantics failEnv twoState ("latest") none
    ⟨("1.0.0"), 0, some ("2.0.0"), 1, true⟩ [0] [] 1
    ⟨("2.0.0"), 2, 0, 0, (""), ("")⟩
    (stateWF_decide _ (by decide) (by decide)) rfl rfl (by decide) (by decide) rfl
    (by
      intro j hj
      rw [List.mem_singleton] at hj
      subst hj
      exact ⟨⟨("1.0.0"), 1, 0, 0, (""), ("")⟩, rfl, rfl, rfl⟩)
    rfl

/-- The engine after registering the spec's planner example collection. -/
def c8State : MState :=
  (addVersions initState [("1.0.1"), ("1.0.2"), ("1.1.0"), ("1.2.0"), ("1.2.1"),
    ("1.2.2"), ("7.8.9"), ("10.11.12")]).toOption.getD initState

/-- C8.  The planner resolves target `major` to the highest-sorted version
of the smallest major group strictly above `from` (`specMajorTarget`, which
tolerates gaps and falls back to `from` itself when no greater major
exists); `minor` falls back to `from` when nothing above it shares its
major; and on the spec's literal collection, from `1.0.1` the targets
`major`, `minor` and `patch` resolve to `7.8.9`, `1.2.2` and `1.0.2`. -/
theorem upMeta_major_next_group (s : MState) (fl : Option String) (meta : UpMeta)
    (hWF : StateWF s) (h : upMeta s ("major") fl = .ok (some meta)) :
    (∃ fr ∈ s.items, meta.fromVersion = fr.version ∧
      meta.toVersion = some (specMajorTarget s.items fr)) ∧
    (∀ fr : Entry,
      s.items.filter (fun v => v.major = fr.major ∧ v.minor > fr.minor) = [] →
      upMetaTo s ("minor") fr = .ok (some fr.version)) ∧
    upMeta c8State ("major") (some ("1.0.1")) =
      .ok (some ⟨("1.0.1"), 0, some ("7.8.9"), 6, false⟩) ∧
    upMeta c8State ("minor") (some ("1.0.1")) =
      .ok (some ⟨("1.0.1"), 0, some ("1.2.2"), 5, false⟩) ∧
    upMeta c8State ("patch") (some ("1.0.1")) =
      .ok (some ⟨("1.0.1"), 0, some ("1.0.2"), 1, false⟩) :=
  ⟨upMeta_major_inv s fl meta hWF h,
   fun fr hf => upMetaTo_minor_fallback s fr hf, rfl, rfl, rfl⟩

theorem upMeta_major_next_group_witness :
    (∃ fr ∈ c8State.items,
      (⟨("1.0.1"), 0, some ("7.8.9"), 6, false⟩ : UpMeta).fromVersion = fr.version ∧
      (⟨("1.0.1"), 0, some ("7.8.9"), 6, false⟩ : UpMeta).toVersion =
        some (specMajorTarget c8State.items fr)) ∧
    (∀ fr : Entry,
      c8State.items.filter (fun v => v.major = fr.major ∧ v.minor > fr.minor) = [] →
      upMetaTo c8State ("minor") fr = .ok (some fr.version)) ∧
    upMeta c8State ("major") (some ("1.0.1")) =
      .ok (some ⟨("1.0.1"), 0, some ("7.8.9"), 6, false⟩) ∧
    upMeta c8State ("minor") (some ("1.0.1")) =
      .ok (some ⟨("1.0.1"), 0, some ("1.2.2"), 5, false⟩) ∧
    upMeta c8State ("patch") (some ("1.0.1")) =
      .ok (some ⟨("1.0.1"), 0, some ("1.0.2"), 1, false⟩) :=
  upMeta_major_next_group c8State (some ("1.0.1"))
    ⟨("1.0.1"), 0, some ("7.8.9"), 6, false⟩
    (stateWF_decide _ (by decide) (by decide)) rfl

/-- C9.  `uninstall` is a no-op returning 0 when nothing is active;
otherwise it performs `down("initial")`, adds the lowest version's own down
action as one extra final step, clears the active marker (afterwards
`getActiveVersion` reports unset) and returns the down-count plus one. -/
theorem uninstall_full_teardown (env : Env) (s : MState) (hWF : StateWF s) :
    (s.stored = none → uninstall env s = (.ok 0, [], s)) ∧
    (∀ k ek n tr s1 e0,
      s.items.get? k = some ek → s.stored = some ek.version →
      down env s ("initial") = (.ok n, tr, s1) →
      s1.items.get? 0 = some e0 →
      env.downFails e0.version = false → env.setFails none = false →
      uninstall env s =
        (.ok (n + 1), tr ++ [.downAct e0.version, .extSet none],
          { s1 with activeMem := none, stored := none }) ∧
      getActiveVersion { s1 with activeMem := none, stored := none } = .ok none) := by
  refine ⟨fun h => uninstall_noop env s h, ?_⟩
  intro k ek n tr s1 e0 hk hst hdown h0 hdf hsf
  exact uninstall_comp env s k ek hWF hk hst n tr s1 hdown e0 h0 hdf hsf

/-- A two-version engine with the top version active. -/
def twoStateTop : MState :=
  ⟨[⟨("1.0.0"), 1, 0, 0, (""), ("")⟩, ⟨("2.0.0"), 2, 0, 0, (""), ("")⟩],
    some ("2.0.0"), some ("2.0.0")⟩

theorem uninstall_full_teardown_witness :
    (twoStateTop.stored = none → uninstall allOk twoStateTop = (.ok 0, [], twoStateTop)) ∧
    (∀ k ek n tr s1 e0,
      twoStateTop.items.get? k = some ek → twoStateTop.stored = some ek.version →
      down allOk twoStateTop ("initial") = (.ok n, tr, s1) →
      s1.items.get? 0 = some e0 →
      allOk.downFails e0.version = false → allOk.setFails none = false →
      uninstall allOk twoStateTop =
        (.ok (n + 1), tr ++ [.downAct e0.version, .extSet none],
          { s1 with activeMem := none, stored := none }) ∧
      getActiveVersion { s1 with activeMem := none, stored := none } = .ok none) :=
  uninstall_full_teardown allOk twoStateTop (stateWF_decide _ (by decide) (by decide))

/-- C10.  When the external getter yields the empty string, the engine's
`getActiveVersion` passes it through unnormalized; the planner then treats
it as a falsy from-label (falling back to the lowest version) while
computing `isInitial = false`, so `up("latest")` runs only the steps above
the lowest version — its up action is skipped and the count is one short of
the collection size. -/
theorem empty_active_skips_lowest (env : Env) (s : MState) (e0 eN : Entry)
    (hWF : StateWF s)
    (hstored : s.stored = some (""))
    (h0 : s.items.get? 0 = some e0)
    (hN : s.items.get? (s.items.length - 1) = some eN)
    (hlen : 2 ≤ s.items.length)
    (henv : ∀ e ∈ s.items, env.upFails e.version = false ∧
      env.setFails (some e.version) = false) :
    getActiveVersion s = .ok (some ("")) ∧
    upMeta s ("latest") (some ("")) =
      .ok (some ⟨e0.version, ((0 : Nat) : Int), some eN.version,
        ((s.items.length - 1 : Nat) : Int), false⟩) ∧
    up env s ("latest") =
      (.ok (s.items.length - 1),
        upStepEvents (versionsAt s.items (List.range' 1 (s.items.length - 1))),
        afterSteps s (versionsAt s.items (List.range' 1 (s.items.length - 1)))) := by
  have hne : s.items ≠ [] := List.ne_nil_of_length_pos (by omega)
  have hga := getActiveVersion_empty s hstored
  have hres : resolveFrom s (some ("")) = .ok (some e0) := by
    rw [resolveFrom_falsy s _ (Or.inr rfl), atIdx_zero, h0]
  have hmeta := upMeta_latest_eval s hWF (some ("")) (some ("")) e0 0 eN hne rfl hres h0 hN
  refine ⟨hga, hmeta, ?_⟩
  rw [up_run env s ("latest") (some ("")) _ hga hmeta
    (by
      show ¬(((0 : Nat) : Int) = -1 ∨ ((s.items.length - 1 : Nat) : Int) = -1)
      omega)
    (by
      show ¬(((0 : Nat) : Int) ≥ ((s.items.length - 1 : Nat) : Int) ∧
        ¬(decide ((some ("") : Option String) = none) = true))
      intro hcon
      have := hcon.1
      omega)]
  show runUpSteps env s.items
    ((List.range' ((0 : Nat) : Int).toNat
      (((s.items.length - 1 : Nat) : Int).toNat + 1 - ((0 : Nat) : Int).toNat)).drop 1)
    s 0 [] = _
  have ht1 : ((0 : Nat) : Int).toNat = 0 := by simp
  have ht2 : ((s.items.length - 1 : Nat) : Int).toNat = s.items.length - 1 := by simp
  rw [ht1, ht2,
    show s.items.length - 1 + 1 - 0 = (s.items.length - 1) + 1 from by omega,
    List.range'_succ]
  rw [show (0 :: List.range' (0 + 1) (s.items.length - 1)).drop 1 =
    List.range' (0 + 1) (s.items.length - 1) from rfl]
  rw [show List.range' (0 + 1) (s.items.length - 1) =
    List.range' 1 (s.items.length - 1) from rfl]
  have hok : ∀ i ∈ List.range' 1 (s.items.length - 1),
      ∃ e, s.items.get? i = some e ∧
      env.upFails e.version = false ∧ env.setFails (some e.version) = false := by
    intro i hi
    rw [List.mem_range'_1] at hi
    obtain ⟨e, he⟩ : ∃ e, s.items.get? i = some e := by
      rw [List.get?_eq_getElem?]
      have hl : i < s.items.length := by omega
      simp [List.getElem?_eq_getElem hl]
    exact ⟨e, he, henv e (List.get?_mem he)⟩
  rw [runUpSteps_allOk env s.items _ s 0 [] rfl hWF.1 hWF.2 hok]
  simp [List.length_range']

/-- A two-version engine whose external store holds the empty string. -/
def twoStateEmpty : MState :=
  ⟨[⟨("1.0.0"), 1, 0, 0, (""), ("")⟩, ⟨("2.0.0"), 2, 0, 0, (""), ("")⟩],
    some (""), some ("")⟩

theorem empty_active_skips_lowest_witness :
    getActiveVersion twoStateEmpty = .ok (some ("")) ∧
    upMeta twoStateEmpty ("latest") (some ("")) =
      .ok (some ⟨("1.0.0"), ((0 : Nat) : Int), some ("2.0.0"),
        ((twoStateEmpty.items.length - 1 : Nat) : Int), false⟩) ∧
    up allOk twoStateEmpty ("latest") =
      (.ok (twoStateEmpty.items.length - 1),
        upStepEvents (versionsAt twoStateEmpty.items
          (List.range' 1 (twoStateEmpty.items.length - 1))),
        afterSteps twoStateEmpty (versionsAt twoStateEmpty.items
          (List.range' 1 (twoStateEmpty.items.length - 1)))) :=
  empty_active_skips_lowest allOk twoStateEmpty
    ⟨("1.0.0"), 1, 0, 0, (""), ("")⟩ ⟨("2.0.0"), 2, 0, 0, (""), ("")⟩
    (stateWF_decide _ (by decide) (by decide)) rfl rfl rfl (by decide) (by decide)

end Migrate
